import Mathlib

/-!
# Lossless Bayesian network engine: shallow embedding and verification

This file embeds the C++ engine of the repository (`node.hpp`, `cpt.hpp`,
`bayesian_network.hpp`) in Lean and verifies properties of it.

Modelling conventions:
* `double` is modelled as `ℚ` (exact arithmetic; the engine performs only
  field operations and comparisons on probabilities).
* `std::string` is `String`, compared by the byte-lexicographic order of
  `std::string::operator<` (identical to code-point order on the ASCII
  identifiers the engine uses).
* `std::set<std::string>` is a strictly sorted duplicate-free `List String`.
* `std::map` is an association list kept sorted by key, so that iteration
  order in the embedding coincides with `std::map` iteration order.
* a C++ method that may throw becomes a function into `Except BNError _`;
  a *mutating* method additionally returns the post-call state, so that the
  state left behind by a throwing call is observable.
-/

/-- Errors thrown by the engine (`std::runtime_error` / `std::out_of_range`
sites, one constructor per distinct failure condition). -/
inductive BNError where
  | nodeExists | unknownNode | selfLoop | cycle
  | dimMismatch | outOfBounds | probRange
  | missingCPT | missingParentState | invalidState | missingAssignment
  deriving DecidableEq

/-! ## String ordering (models `std::string::operator<`) -/

/-- Lexicographic comparison of character lists by code point. -/
def strLtAux : List Char → List Char → Bool
  | [], [] => false
  | [], _ :: _ => true
  | _ :: _, [] => false
  | a :: as, b :: bs =>
    if a.toNat < b.toNat then true
    else if b.toNat < a.toNat then false
    else strLtAux as bs

/-- The `std::string` comparison used by `std::set<std::string>` and
`std::map<std::string, _>`. -/
def strLt (a b : String) : Bool := strLtAux a.data b.data

/-! ## Sorted string sets (models `std::set<std::string>`) -/

/-- `std::set<std::string>::insert`: insert preserving strict sorted order,
no duplicates. -/
def sInsert (x : String) : List String → List String
  | [] => [x]
  | y :: ys =>
    if strLt x y then x :: y :: ys
    else if x = y then y :: ys
    else y :: sInsert x ys

/-- `std::set<std::string>::erase`. -/
def sErase (x : String) : List String → List String
  | [] => []
  | y :: ys => if x = y then ys else y :: sErase x ys

/-- Strictly-sorted predicate for the sorted-set and sorted-map models. -/
def SSorted (l : List String) : Prop := l.Pairwise (fun a b => strLt a b = true)

/-! ## Sorted association lists (models `std::map<std::string, _>`) -/

/-- `std::map::find`, returning the mapped value. -/
def mapFind {α : Type} : List (String × α) → String → Option α
  | [], _ => none
  | p :: rest, k => if p.1 = k then some p.2 else mapFind rest k

/-- `std::map::operator[] = v`: replace in place, or insert at the sorted
position. -/
def mapInsert {α : Type} : List (String × α) → String → α → List (String × α)
  | [], k, v => [(k, v)]
  | p :: rest, k, v =>
    if strLt k p.1 then (k, v) :: p :: rest
    else if k = p.1 then (k, v) :: rest
    else p :: mapInsert rest k v

/-- In-place update of an existing key (`map[k].mutate()` on a key known to be
present; a no-op on absent keys). -/
def mapUpdate {α : Type} (m : List (String × α)) (k : String) (f : α → α) :
    List (String × α) :=
  m.map (fun p => if p.1 = k then (p.1, f p.2) else p)

/-- Sorted-keys invariant of the `std::map` model. -/
def MapWF {α : Type} (m : List (String × α)) : Prop :=
  m.Pairwise (fun p q => strLt p.1 q.1 = true)

/-- Association lists with non-`String` keys (used for message maps keyed by
node-id pairs and for enumeration results keyed by whole assignments; those
maps are only ever looked up or summed over, never iterated in key order, so
the plain insert-or-replace representation is observationally equivalent to
`std::map`). -/
def aFind {κ α : Type} [DecidableEq κ] : List (κ × α) → κ → Option α
  | [], _ => none
  | p :: rest, k => if p.1 = k then some p.2 else aFind rest k

/-- Insert-or-replace for the non-`String`-keyed association lists. -/
def aSet {κ α : Type} [DecidableEq κ] : List (κ × α) → κ → α → List (κ × α)
  | [], k, v => [(k, v)]
  | p :: rest, k, v => if p.1 = k then (k, v) :: rest else p :: aSet rest k v

/-! ## Node (`node.hpp`) -/

/-- A variable of the network (`Node` in `node.hpp`): display name, ordered
state list, and the sorted set of parent ids. The C++ class also caches
`stateIndexMap` (state name → index), built in the constructor; it is
represented by the derived function `Node.getStateIndex`. -/
structure Node where
  name : String
  states : List String
  parentIds : List String
  deriving DecidableEq

/-- `Node::getStateIndex`: the index of a state name, `-1` when absent.
The constructor writes `stateIndexMap[states[i]] = i` for `i` ascending, so
for a duplicated name the last index wins; the left fold reproduces that. -/
def Node.getStateIndex (n : Node) (stateName : String) : Int :=
  n.states.enum.foldl (fun acc p => if p.2 = stateName then (p.1 : Int) else acc) (-1)

/-- `Node::addParent` (`std::set::insert`). -/
def Node.addParent (n : Node) (parentId : String) : Node :=
  { n with parentIds := sInsert parentId n.parentIds }

/-- `Node::removeParent` (`std::set::erase`). -/
def Node.removeParent (n : Node) (parentId : String) : Node :=
  { n with parentIds := sErase parentId n.parentIds }

/-- `Node::hasParent`. -/
def Node.hasParent (n : Node) (parentId : String) : Bool :=
  n.parentIds.contains parentId

/-! ## Conditional probability table (`cpt.hpp`) -/

/-- `ConditionalProbabilityTable`: flat probability storage with
multi-dimensional indexing via precomputed strides. -/
structure ConditionalProbabilityTable where
  probabilities : List ℚ
  dimensions : List ℕ
  strides : List ℕ
  totalSize : ℕ
  deriving DecidableEq

/-- Net effect of `calculateStrides`: `strides[i] = ∏_{j>i} dims[j]`
(the C++ fills the array right to left, last stride `1`). -/
def calculateStrides : List ℕ → List ℕ
  | [] => []
  | _ :: rest => rest.prod :: calculateStrides rest

/-- The dimensioned constructor: `totalSize = ∏ dims`, storage
zero-initialised, strides precomputed. -/
def ConditionalProbabilityTable.ofDims (dims : List ℕ) : ConditionalProbabilityTable :=
  { probabilities := List.replicate dims.prod 0
    dimensions := dims
    strides := calculateStrides dims
    totalSize := dims.prod }

/-- The flat-index sum `Σ indices[i] * strides[i]` (the loop body of
`getFlatIndex` once the bounds checks have passed). -/
def flatIndexVal (indices strides : List ℕ) : ℕ :=
  ((indices.zip strides).map (fun p => p.1 * p.2)).sum

/-- `getFlatIndex`: bounds-checked conversion of a multi-index to a flat
index; throws on dimension-count mismatch or an out-of-range index. -/
def ConditionalProbabilityTable.getFlatIndex (t : ConditionalProbabilityTable)
    (indices : List ℕ) : Except BNError ℕ :=
  if indices.length = t.dimensions.length then
    if (indices.zip t.dimensions).all (fun p => decide (p.1 < p.2)) then
      .ok (flatIndexVal indices t.strides)
    else .error .outOfBounds
  else .error .dimMismatch

/-- `setProbability` (mutating: returns the post-call state; both checks
happen before the write, so a failing call returns the tensor unchanged). -/
def ConditionalProbabilityTable.setProbability (t : ConditionalProbabilityTable)
    (parentStates : List ℕ) (nodeState : ℕ) (prob : ℚ) :
    Except BNError Unit × ConditionalProbabilityTable :=
  if prob < 0 ∨ prob > 1 then (.error .probRange, t)
  else
    match t.getFlatIndex (parentStates ++ [nodeState]) with
    | .error e => (.error e, t)
    | .ok idx => (.ok (), { t with probabilities := t.probabilities.set idx prob })

/-- `getProbability`. The C++ reads `probabilities[idx]`; the index is in
range whenever `getFlatIndex` succeeds on a well-formed tensor
(`flatIndexVal_lt_prod` below), and `getD _ 0` makes the read total. -/
def ConditionalProbabilityTable.getProbability (t : ConditionalProbabilityTable)
    (parentStates : List ℕ) (nodeState : ℕ) : Except BNError ℚ :=
  match t.getFlatIndex (parentStates ++ [nodeState]) with
  | .error e => .error e
  | .ok idx => .ok (t.probabilities.getD idx 0)

/-- The parent-configuration decoding loop shared by `normalize` and
`isValid`: `indices.push_back(temp % dims[i]); temp /= dims[i]` over the
parent dimensions in order. -/
def decodeConfig : List ℕ → ℕ → List ℕ
  | [], _ => []
  | d :: rest, temp => (temp % d) :: decodeConfig rest (temp / d)

/-- `numNodeStates` (`dimensions.back()`; the C++ is undefined on an empty
dimension vector, where this model returns `0`). -/
def ConditionalProbabilityTable.numNodeStates (t : ConditionalProbabilityTable) : ℕ :=
  t.dimensions.getLastD 0

/-- `numParentConfigs` (product of all dimensions but the last; the C++ is
undefined on an empty dimension vector, where this model returns `1`). -/
def ConditionalProbabilityTable.numParentConfigs (t : ConditionalProbabilityTable) : ℕ :=
  t.dimensions.dropLast.prod

/-- Flat index of entry `ns` of parent-configuration slice `pc`. Inside
`normalize`/`isValid` every constructed multi-index is in bounds, so the
unchecked `flatIndexVal` coincides with the C++ `getFlatIndex` call. -/
def ConditionalProbabilityTable.sliceIdx (t : ConditionalProbabilityTable)
    (pc ns : ℕ) : ℕ :=
  flatIndexVal (decodeConfig t.dimensions.dropLast pc ++ [ns]) t.strides

/-- Sum of one parent-configuration slice of a probability array. -/
def ConditionalProbabilityTable.sliceSum (t : ConditionalProbabilityTable)
    (probs : List ℚ) (pc : ℕ) : ℚ :=
  ((List.range t.numNodeStates).map (fun ns => probs.getD (t.sliceIdx pc ns) 0)).sum

/-- One iteration of the outer `normalize` loop: if slice `pc` sums above
`1e-10`, divide each of its entries (in place) by the sum computed before
the updates. -/
def normalizeSlice (t : ConditionalProbabilityTable) (probs : List ℚ) (pc : ℕ) :
    List ℚ :=
  let s := t.sliceSum probs pc
  if s > 1/10^10 then
    (List.range t.numNodeStates).foldl
      (fun p ns => p.set (t.sliceIdx pc ns) (p.getD (t.sliceIdx pc ns) 0 / s)) probs
  else probs

/-- `normalize`: normalise every parent-configuration slice whose sum
exceeds `1e-10`. -/
def ConditionalProbabilityTable.normalize (t : ConditionalProbabilityTable) :
    ConditionalProbabilityTable :=
  { t with probabilities :=
      (List.range t.numParentConfigs).foldl (normalizeSlice t) t.probabilities }

/-- `isValid`: every parent-configuration slice sums to `1` within
`tolerance`. -/
def ConditionalProbabilityTable.isValid (t : ConditionalProbabilityTable)
    (tolerance : ℚ) : Bool :=
  (List.range t.numParentConfigs).all
    (fun pc => decide (|t.sliceSum t.probabilities pc - 1| ≤ tolerance))

/-- Well-formedness of a tensor as produced by the dimensioned constructor
and preserved by every mutator: strides are the suffix products and the
storage has `∏ dims` entries. -/
def ConditionalProbabilityTable.WF (t : ConditionalProbabilityTable) : Prop :=
  t.strides = calculateStrides t.dimensions ∧
    t.probabilities.length = t.dimensions.prod ∧
    t.totalSize = t.dimensions.prod

/-! ## Bayesian network: data and topological sort (`bayesian_network.hpp`) -/

/-- `BayesianNetwork`: id-keyed node map, id-keyed CPT map, and the cached
topological order. -/
structure BayesianNetwork where
  nodes : List (String × Node)
  cpts : List (String × ConditionalProbabilityTable)
  nodeOrder : List String
  deriving DecidableEq

/-- The empty network (`BayesianNetwork()`), -/
def BayesianNetwork.empty : BayesianNetwork :=
  { nodes := [], cpts := [], nodeOrder := [] }

/-- Sum of the positive in-degrees (the termination measure of Kahn's
algorithm; used only to size the fuel of the loop). -/
def sumPos : List (String × Int) → ℕ
  | [] => 0
  | p :: rest => p.2.toNat + sumPos rest

/-- `inDegree[id]--` on the in-degree table, also reporting whether the
decremented value hit `0` (the push condition of Kahn's algorithm). A miss
leaves the table unchanged (cannot happen on the tables the sort builds). -/
def bumpInDeg : List (String × Int) → String → List (String × Int) × Bool
  | [], _ => ([], false)
  | p :: rest, id =>
    if p.1 = id then ((p.1, p.2 - 1) :: rest, p.2 - 1 == 0)
    else
      let r := bumpInDeg rest id
      ((p.1, p.2) :: r.1, r.2)

/-- The inner loop of Kahn's algorithm: for every node that has `current`
as parent, decrement its in-degree and collect it (in node-map iteration
order) if the in-degree reached `0`. -/
def processChildren : List (String × Node) → String → List (String × Int) →
    List (String × Int) × List String
  | [], _, inDeg => (inDeg, [])
  | p :: rest, current, inDeg =>
    if p.2.hasParent current then
      let b := bumpInDeg inDeg p.1
      let r := processChildren rest current b.1
      (r.1, (if b.2 then [p.1] else []) ++ r.2)
    else processChildren rest current inDeg

/-- The `while (!q.empty())` loop of Kahn's algorithm. The loop strictly
decreases `sumPos inDeg + queue.length` at every iteration, so the explicit
fuel (passed one unit above that measure in `topologicalSort`) never runs
out before the queue empties: the fuel-0 branch is unreachable on the real
inputs and the function equals the C++ loop. -/
def kahnLoop (nodes : List (String × Node)) :
    ℕ → List (String × Int) → List String → List String → List String
  | 0, _, _, result => result
  | _ + 1, _, [], result => result
  | fuel + 1, inDeg, current :: q, result =>
    let pr := processChildren nodes current inDeg
    kahnLoop nodes fuel pr.1 (q ++ pr.2) (result ++ [current])

/-- `topologicalSort` over a node map: build the in-degree table (net
effect of the two initialisation loops: `inDegree[id] = |parents(id)|`),
seed the queue with the zero-in-degree nodes in map order, run Kahn's
algorithm, and fail if some nodes could not be ordered. -/
def topoSortNodes (nodes : List (String × Node)) : Except BNError (List String) :=
  let inDeg := nodes.map (fun p => (p.1, (p.2.parentIds.length : Int)))
  let q0 := (inDeg.filter (fun p => p.2 == 0)).map Prod.fst
  let result := kahnLoop nodes (sumPos inDeg + q0.length + 1) inDeg q0 []
  if result.length = nodes.length then .ok result
  else .error .cycle

/-- `BayesianNetwork::topologicalSort` (reads only the node map). -/
def BayesianNetwork.topologicalSort (net : BayesianNetwork) :
    Except BNError (List String) :=
  topoSortNodes net.nodes

/-- `isAcyclic`: `topologicalSort` succeeds. -/
def BayesianNetwork.isAcyclic (net : BayesianNetwork) : Bool :=
  (topoSortNodes net.nodes).isOk

/-- `addNode` (mutating). On success the node is inserted and the
topological order recomputed; a duplicate id throws and leaves the network
unchanged. -/
def BayesianNetwork.addNode (net : BayesianNetwork) (nodeId nodeName : String)
    (states : List String) : Except BNError Unit × BayesianNetwork :=
  if (mapFind net.nodes nodeId).isSome then (.error .nodeExists, net)
  else
    match topoSortNodes (mapInsert net.nodes nodeId ⟨nodeName, states, []⟩) with
    | .ok ord =>
      (.ok (), { net with nodes := mapInsert net.nodes nodeId ⟨nodeName, states, []⟩,
                          nodeOrder := ord })
    | .error e =>
      (.error e, { net with nodes := mapInsert net.nodes nodeId ⟨nodeName, states, []⟩ })

/-- `addEdge` (mutating). Checks both endpoints and self-loops, inserts the
parent into the child's parent set, re-sorts; on a cycle the edge is
removed again and `CycleError` is thrown. The C++ calls `isAcyclic()` and
then `topologicalSort()`; both are const and deterministic, so the single
`match` below has the same net effect. -/
def BayesianNetwork.addEdge (net : BayesianNetwork) (parentId childId : String) :
    Except BNError Unit × BayesianNetwork :=
  if (mapFind net.nodes parentId).isNone then (.error .unknownNode, net)
  else if (mapFind net.nodes childId).isNone then (.error .unknownNode, net)
  else if parentId = childId then (.error .selfLoop, net)
  else
    match topoSortNodes (mapUpdate net.nodes childId (fun n => n.addParent parentId)) with
    | .ok ord =>
      (.ok (), { net with nodes := mapUpdate net.nodes childId (fun n => n.addParent parentId),
                          nodeOrder := ord })
    | .error _ =>
      (.error .cycle,
        { net with nodes := mapUpdate (mapUpdate net.nodes childId (fun n => n.addParent parentId))
                              childId (fun n => n.removeParent parentId) })

/-- `setCPT` (mutating): store (insert or overwrite) the CPT of an existing
node. -/
def BayesianNetwork.setCPT (net : BayesianNetwork) (nodeId : String)
    (cpt : ConditionalProbabilityTable) : Except BNError Unit × BayesianNetwork :=
  if (mapFind net.nodes nodeId).isNone then (.error .unknownNode, net)
  else (.ok (), { net with cpts := mapInsert net.cpts nodeId cpt })

/-! ## Conditional and joint probability queries -/

/-- The loop in `getConditionalProbability` building the parent-state index
vector: iterate the node's parent ids (sorted-set order), look each up in
the supplied assignment, and resolve its state index via the parent node. -/
def buildParentIndices (net : BayesianNetwork)
    (parentStates : List (String × String)) :
    List String → Except BNError (List ℕ)
  | [] => .ok []
  | parentId :: rest =>
    match mapFind parentStates parentId with
    | none => .error .missingParentState
    | some st =>
      match mapFind net.nodes parentId with
      | none => .error .unknownNode
      | some parentNode =>
        let idx := parentNode.getStateIndex st
        if idx = -1 then .error .invalidState
        else
          match buildParentIndices net parentStates rest with
          | .error e => .error e
          | .ok is => .ok (idx.toNat :: is)

/-- `getConditionalProbability`. -/
def BayesianNetwork.getConditionalProbability (net : BayesianNetwork)
    (nodeId nodeState : String) (parentStates : List (String × String)) :
    Except BNError ℚ :=
  match mapFind net.cpts nodeId with
  | none => .error .missingCPT
  | some cpt =>
    match mapFind net.nodes nodeId with
    | none => .error .unknownNode
    | some node =>
      match buildParentIndices net parentStates node.parentIds with
      | .error e => .error e
      | .ok idxs =>
        let nodeStateIdx := node.getStateIndex nodeState
        if nodeStateIdx = -1 then .error .invalidState
        else cpt.getProbability idxs nodeStateIdx.toNat

/-- The loop of `computeJointProbability` collecting one node's parent→state
assignment (sorted-map build; throws on the first missing parent). -/
def buildParentAssignment (assignment : List (String × String)) :
    List String → Except BNError (List (String × String))
  | [] => .ok []
  | parentId :: rest =>
    match mapFind assignment parentId with
    | none => .error .missingAssignment
    | some v =>
      match buildParentAssignment assignment rest with
      | .error e => .error e
      | .ok ps => .ok (mapInsert ps parentId v)

/-- The node-by-node product accumulation of `computeJointProbability`
(processes `nodeOrder` left to right). -/
def jointProbAux (net : BayesianNetwork) (assignment : List (String × String)) :
    List String → ℚ → Except BNError ℚ
  | [], acc => .ok acc
  | nodeId :: rest, acc =>
    match mapFind assignment nodeId with
    | none => .error .missingAssignment
    | some nodeState =>
      match mapFind net.nodes nodeId with
      | none => .error .unknownNode
      | some node =>
        match buildParentAssignment assignment node.parentIds with
        | .error e => .error e
        | .ok parentStates =>
          match net.getConditionalProbability nodeId nodeState parentStates with
          | .error e => .error e
          | .ok condProb => jointProbAux net assignment rest (acc * condProb)

/-- `computeJointProbability`. -/
def BayesianNetwork.computeJointProbability (net : BayesianNetwork)
    (assignment : List (String × String)) : Except BNError ℚ :=
  jointProbAux net assignment net.nodeOrder 1

/-! ## Brute-force enumeration (`variableElimination`) -/

/-- `generateAssignmentsRecursive`: extend the current partial assignment
with every state of the current node, in declared state order, and recurse
over the remaining nodes. -/
def genAssignmentsRec : List (String × List String) → List (String × String) →
    List (List (String × String))
  | [], current => [current]
  | (nodeId, states) :: rest, current =>
    states.flatMap (fun st => genAssignmentsRec rest (mapInsert current nodeId st))

/-- The state-list gathering loop of `generateAssignments` (throws on a
missing node). -/
def gatherStateLists (net : BayesianNetwork) :
    List String → Except BNError (List (String × List String))
  | [] => .ok []
  | nodeId :: rest =>
    match mapFind net.nodes nodeId with
    | none => .error .unknownNode
    | some node =>
      match gatherStateLists net rest with
      | .error e => .error e
      | .ok ls => .ok ((nodeId, node.states) :: ls)

/-- `generateAssignments`. -/
def BayesianNetwork.generateAssignments (net : BayesianNetwork)
    (nodeIds : List String) : Except BNError (List (List (String × String))) :=
  if nodeIds.isEmpty then .ok [[]]
  else
    match gatherStateLists net nodeIds with
    | .error e => .error e
    | .ok pairs => .ok (genAssignmentsRec pairs [])

/-- `fullAssignment[k] = v` over all pairs of `extra` in order. -/
def insertAll (base : List (String × String)) :
    List (String × String) → List (String × String)
  | [] => base
  | p :: rest => insertAll (mapInsert base p.1 p.2) rest

/-- The inner accumulation loop of `variableElimination`: add the joint
probability of each completed assignment, skipping — not failing on — the
combinations whose joint evaluation throws (the `try`/`catch` in the C++). -/
def sumCombinations (net : BayesianNetwork) (full : List (String × String)) :
    List (List (String × String)) → ℚ → ℚ
  | [], acc => acc
  | sa :: rest, acc =>
    match net.computeJointProbability (insertAll full sa) with
    | .ok p => sumCombinations net full rest (acc + p)
    | .error _ => sumCombinations net full rest acc

/-- `variableElimination`. The C++ recomputes `sumNodes` and their
assignment list inside the per-query-assignment loop; neither depends on
the query assignment, so they are hoisted here. The result map is keyed by
canonical (sorted) assignment maps, so insert-or-replace reproduces
`std::map` keying; entry order is irrelevant to every observation made of
the result (lookups and value sums). -/
def BayesianNetwork.variableElimination (net : BayesianNetwork)
    (queryNodes : List String) (evidence : List (String × String)) :
    Except BNError (List (List (String × String) × ℚ)) :=
  match net.generateAssignments queryNodes with
  | .error e => .error e
  | .ok queryAssignments =>
    let unobserved := (net.nodes.map Prod.fst).filter
      (fun id => (mapFind evidence id).isNone)
    let sumNodes := unobserved.filter (fun id => !(queryNodes.contains id))
    match net.generateAssignments sumNodes with
    | .error e => .error e
    | .ok sumAssignments =>
      let result := queryAssignments.foldl (fun res qa =>
        aSet res qa (sumCombinations net (insertAll evidence qa) sumAssignments 0)) []
      let total := (result.map Prod.snd).sum
      if total > 1/10^10 then
        .ok (result.map (fun p => (p.1, p.2 / total)))
      else .ok result

/-! ## Belief propagation -/

/-- `beliefs[nodeId][state] = v` (both map levels are sorted maps). -/
def beliefSet (bs : List (String × List (String × ℚ))) (nodeId st : String)
    (v : ℚ) : List (String × List (String × ℚ)) :=
  mapInsert bs nodeId (mapInsert ((mapFind bs nodeId).getD []) st v)

/-- `beliefs[nodeId][state] *= v` (`operator[]` default-constructs `0.0` for
an absent state). -/
def beliefMul (bs : List (String × List (String × ℚ))) (nodeId st : String)
    (v : ℚ) : List (String × List (String × ℚ)) :=
  let inner := (mapFind bs nodeId).getD []
  mapInsert bs nodeId (mapInsert inner st (((mapFind inner st).getD 0) * v))

/-- `messages[key][state] = v`. -/
def msgSet (msgs : List ((String × String) × List (String × ℚ)))
    (key : String × String) (st : String) (v : ℚ) :
    List ((String × String) × List (String × ℚ)) :=
  aSet msgs key (mapInsert ((aFind msgs key).getD []) st v)

/-- The state loop of belief initialisation for one node: one-hot for an
observed node, uniform (`1 / |states|`) otherwise. -/
def initNodeBeliefs (bs : List (String × List (String × ℚ))) (nodeId : String)
    (node : Node) (evidence : List (String × String)) :
    List (String × List (String × ℚ)) :=
  match mapFind evidence nodeId with
  | some observedState =>
    node.states.foldl (fun bs' st =>
      beliefSet bs' nodeId st (if st = observedState then 1 else 0)) bs
  | none =>
    node.states.foldl (fun bs' st =>
      beliefSet bs' nodeId st (1 / (node.states.length : ℚ))) bs

/-- The belief-initialisation loop of `beliefPropagation` (iterates the node
map in key order). -/
def initBeliefs (evidence : List (String × String)) :
    List (String × Node) → List (String × List (String × ℚ)) →
    List (String × List (String × ℚ))
  | [], bs => bs
  | p :: rest, bs => initBeliefs evidence rest (initNodeBeliefs bs p.1 p.2 evidence)

/-- `messages[(nodeId, childId)][state] = prob` for every child of `nodeId`,
in node-map order. -/
def sendToChildren (nodeId st : String) (prob : ℚ) :
    List (String × Node) → List ((String × String) × List (String × ℚ)) →
    List ((String × String) × List (String × ℚ))
  | [], msgs => msgs
  | p :: rest, msgs =>
    if p.2.hasParent nodeId then
      sendToChildren nodeId st prob rest (msgSet msgs (nodeId, p.1) st prob)
    else sendToChildren nodeId st prob rest msgs

/-- The root-prior message loop of `initializeMessages` for one parentless
node: for each state index, read the prior (which can throw on a
mis-dimensioned CPT) and write it to every child. -/
def rootMessages (nodes : List (String × Node)) (nodeId : String) (node : Node)
    (cpt : ConditionalProbabilityTable) :
    List ℕ → List ((String × String) × List (String × ℚ)) →
    Except BNError (List ((String × String) × List (String × ℚ)))
  | [], msgs => .ok msgs
  | i :: rest, msgs =>
    match cpt.getProbability [] i with
    | .error e => .error e
    | .ok prob =>
      rootMessages nodes nodeId node cpt rest
        (sendToChildren nodeId (node.states.getD i "") prob nodes msgs)

/-- `initializeMessages`: unobserved parentless nodes with a CPT seed
messages to their children from their prior. -/
def initializeMessages (net : BayesianNetwork) (evidence : List (String × String)) :
    List (String × Node) → List ((String × String) × List (String × ℚ)) →
    Except BNError (List ((String × String) × List (String × ℚ)))
  | [], msgs => .ok msgs
  | p :: rest, msgs =>
    if (mapFind evidence p.1).isSome then initializeMessages net evidence rest msgs
    else if p.2.parentIds.isEmpty then
      match mapFind net.cpts p.1 with
      | none => initializeMessages net evidence rest msgs
      | some cpt =>
        match rootMessages net.nodes p.1 p.2 cpt (List.range p.2.states.length) msgs with
        | .error e => .error e
        | .ok msgs' => initializeMessages net evidence rest msgs'
    else initializeMessages net evidence rest msgs

/-- The `childMessages` collection of the upward pass: the stored messages
from `nodeId` to each of its children, keyed by child id (sorted). -/
def collectChildMessages (msgs : List ((String × String) × List (String × ℚ)))
    (nodeId : String) : List (String × Node) →
    List (String × List (String × ℚ)) → List (String × List (String × ℚ))
  | [], acc => acc
  | p :: rest, acc =>
    if p.2.hasParent nodeId then
      match aFind msgs (nodeId, p.1) with
      | some m => collectChildMessages msgs nodeId rest (mapInsert acc p.1 m)
      | none => collectChildMessages msgs nodeId rest acc
    else collectChildMessages msgs nodeId rest acc

/-- The `parentStates` construction of the upward pass: the messaged parent
gets the current `parentState`; every *other* parent is resolved from the
evidence or — as written in the C++ — to `parentNode.states[0]`, where
`parentNode` is the *message-target* parent, not the other parent itself
(`[0]` on an empty state vector is undefined in C++; `getD 0 ""` makes the
model total there). -/
def buildUpwardParentStates (node : Node) (parentId parentState : String)
    (parentNode : Node) (evidence : List (String × String)) :
    List (String × String) :=
  node.parentIds.foldl (fun ps otherParentId =>
    if otherParentId ≠ parentId then
      match mapFind evidence otherParentId with
      | some v => mapInsert ps otherParentId v
      | none => mapInsert ps otherParentId (parentNode.states.getD 0 "")
    else ps) [(parentId, parentState)]

/-- Product of the incoming child messages evaluated at one node state. -/
def childMessageProduct (childMessages : List (String × List (String × ℚ)))
    (nodeState : String) : ℚ :=
  childMessages.foldl (fun acc cm =>
    match mapFind cm.2 nodeState with
    | some v => acc * v
    | none => acc) 1

/-- The inner node-state sum producing one entry of an upward message. -/
def upwardMessageValue (net : BayesianNetwork) (nodeId : String) (node : Node)
    (parentId parentState : String) (parentNode : Node)
    (evidence : List (String × String))
    (childMessages : List (String × List (String × ℚ))) :
    List ℕ → ℚ → Except BNError ℚ
  | [], acc => .ok acc
  | i :: rest, acc =>
    let nodeState := node.states.getD i ""
    let parentStates := buildUpwardParentStates node parentId parentState parentNode evidence
    match net.getConditionalProbability nodeId nodeState parentStates with
    | .error e => .error e
    | .ok condProb =>
      upwardMessageValue net nodeId node parentId parentState parentNode evidence
        childMessages rest (acc + condProb * childMessageProduct childMessages nodeState)

/-- The per-parent-state loop building one upward message row. -/
def upwardMessage (net : BayesianNetwork) (nodeId : String) (node : Node)
    (parentId : String) (parentNode : Node) (evidence : List (String × String))
    (childMessages : List (String × List (String × ℚ))) :
    List String → List (String × ℚ) → Except BNError (List (String × ℚ))
  | [], row => .ok row
  | parentState :: rest, row =>
    match upwardMessageValue net nodeId node parentId parentState parentNode evidence
        childMessages (List.range node.states.length) 0 with
    | .error e => .error e
    | .ok mv =>
      upwardMessage net nodeId node parentId parentNode evidence childMessages rest
        (mapInsert row parentState mv)

/-- Message/belief row normalisation: divide by the row sum when it exceeds
`1e-10`, otherwise leave the row untouched. -/
def normalizeRow (row : List (String × ℚ)) : List (String × ℚ) :=
  let s := (row.map Prod.snd).sum
  if s > 1/10^10 then row.map (fun p => (p.1, p.2 / s)) else row

/-- The per-parent loop of the upward pass for one node (skips observed
parents; `nodes.at(parentId)` throws on an unknown parent id). -/
def upwardToParents (net : BayesianNetwork) (nodeId : String) (node : Node)
    (evidence : List (String × String))
    (childMessages : List (String × List (String × ℚ))) :
    List String → List ((String × String) × List (String × ℚ)) →
    Except BNError (List ((String × String) × List (String × ℚ)))
  | [], msgs => .ok msgs
  | parentId :: rest, msgs =>
    if (mapFind evidence parentId).isSome then
      upwardToParents net nodeId node evidence childMessages rest msgs
    else
      match mapFind net.nodes parentId with
      | none => .error .unknownNode
      | some parentNode =>
        match upwardMessage net nodeId node parentId parentNode evidence childMessages
            parentNode.states [] with
        | .error e => .error e
        | .ok row =>
          upwardToParents net nodeId node evidence childMessages rest
            (aSet msgs (nodeId, parentId) (normalizeRow row))

/-- The upward pass: process the cached order reversed (leaves first),
skipping observed nodes and nodes without a CPT. -/
def upwardPass (net : BayesianNetwork) (evidence : List (String × String)) :
    List String → List ((String × String) × List (String × ℚ)) →
    Except BNError (List ((String × String) × List (String × ℚ)))
  | [], msgs => .ok msgs
  | nodeId :: rest, msgs =>
    if (mapFind evidence nodeId).isSome then upwardPass net evidence rest msgs
    else
      match mapFind net.nodes nodeId with
      | none => .error .unknownNode
      | some node =>
        if (mapFind net.cpts nodeId).isNone then upwardPass net evidence rest msgs
        else
          match upwardToParents net nodeId node evidence
              (collectChildMessages msgs nodeId net.nodes []) node.parentIds msgs with
          | .error e => .error e
          | .ok msgs' => upwardPass net evidence rest msgs'

/-- The `parentMessages` collection of the downward pass (messages from each
parent to `nodeId`, keyed by parent id). -/
def collectParentMessages (msgs : List ((String × String) × List (String × ℚ)))
    (nodeId : String) : List String →
    List (String × List (String × ℚ)) → List (String × List (String × ℚ))
  | [], acc => acc
  | parentId :: rest, acc =>
    match aFind msgs (parentId, nodeId) with
    | some m => collectParentMessages msgs nodeId rest (mapInsert acc parentId m)
    | none => collectParentMessages msgs nodeId rest acc

/-- The mode selection of the downward pass: start from
`(0.0, parentNode.states[0])` and keep the strictly larger entries in map
iteration order. -/
def argmaxState (row : List (String × ℚ)) (init : String) : String :=
  (row.foldl (fun acc p => if p.2 > acc.1 then (p.2, p.1) else acc) (0, init)).2

/-- The `parentStates` construction of the downward pass: evidence value,
else the mode of the incoming parent message, else the parent's first
declared state. -/
def buildDownwardParentStates (net : BayesianNetwork)
    (parentMessages : List (String × List (String × ℚ)))
    (evidence : List (String × String)) :
    List String → List (String × String) → Except BNError (List (String × String))
  | [], ps => .ok ps
  | parentId :: rest, ps =>
    match mapFind evidence parentId with
    | some v =>
      buildDownwardParentStates net parentMessages evidence rest (mapInsert ps parentId v)
    | none =>
      match mapFind parentMessages parentId with
      | some msg =>
        match mapFind net.nodes parentId with
        | none => .error .unknownNode
        | some parentNode =>
          buildDownwardParentStates net parentMessages evidence rest
            (mapInsert ps parentId (argmaxState msg (parentNode.states.getD 0 "")))
      | none =>
        match mapFind net.nodes parentId with
        | none => .error .unknownNode
        | some parentNode =>
          buildDownwardParentStates net parentMessages evidence rest
            (mapInsert ps parentId (parentNode.states.getD 0 ""))

/-- The parent-message product at the selected parent states (every message
key is a parent id, so the `parentStates` lookup always hits; the `none`
branch is unreachable on the maps the pass builds). -/
def parentMessageProduct (parentMessages : List (String × List (String × ℚ)))
    (parentStates : List (String × String)) : ℚ :=
  parentMessages.foldl (fun acc pm =>
    match mapFind parentStates pm.1 with
    | some ps =>
      match mapFind pm.2 ps with
      | some v => acc * v
      | none => acc
    | none => acc) 1

/-- The inner node-state sum producing one entry of a downward message
(the value does not depend on the child state; the C++ recomputes it per
child state all the same). -/
def downwardMessageValue (net : BayesianNetwork) (nodeId : String) (node : Node)
    (parentMessages : List (String × List (String × ℚ)))
    (evidence : List (String × String)) :
    List ℕ → ℚ → Except BNError ℚ
  | [], acc => .ok acc
  | i :: rest, acc =>
    let nodeState := node.states.getD i ""
    match buildDownwardParentStates net parentMessages evidence node.parentIds [] with
    | .error e => .error e
    | .ok parentStates =>
      match net.getConditionalProbability nodeId nodeState parentStates with
      | .error e => .error e
      | .ok condProb =>
        downwardMessageValue net nodeId node parentMessages evidence rest
          (acc + condProb * parentMessageProduct parentMessages parentStates)

/-- The per-child-state loop building one downward message row. -/
def downwardMessage (net : BayesianNetwork) (nodeId : String) (node : Node)
    (parentMessages : List (String × List (String × ℚ)))
    (evidence : List (String × String)) :
    List String → List (String × ℚ) → Except BNError (List (String × ℚ))
  | [], row => .ok row
  | childState :: rest, row =>
    match downwardMessageValue net nodeId node parentMessages evidence
        (List.range node.states.length) 0 with
    | .error e => .error e
    | .ok mv =>
      downwardMessage net nodeId node parentMessages evidence rest
        (mapInsert row childState mv)

/-- The per-child loop of the downward pass for one node (skips observed
children). -/
def downwardToChildren (net : BayesianNetwork) (nodeId : String) (node : Node)
    (parentMessages : List (String × List (String × ℚ)))
    (evidence : List (String × String)) :
    List (String × Node) → List ((String × String) × List (String × ℚ)) →
    Except BNError (List ((String × String) × List (String × ℚ)))
  | [], msgs => .ok msgs
  | p :: rest, msgs =>
    if p.2.hasParent nodeId then
      if (mapFind evidence p.1).isSome then
        downwardToChildren net nodeId node parentMessages evidence rest msgs
      else
        match downwardMessage net nodeId node parentMessages evidence p.2.states [] with
        | .error e => .error e
        | .ok row =>
          downwardToChildren net nodeId node parentMessages evidence rest
            (aSet msgs (nodeId, p.1) (normalizeRow row))
    else downwardToChildren net nodeId node parentMessages evidence rest msgs

/-- The downward pass: process the cached order (roots first), skipping
observed nodes and nodes without a CPT. -/
def downwardPass (net : BayesianNetwork) (evidence : List (String × String)) :
    List String → List ((String × String) × List (String × ℚ)) →
    Except BNError (List ((String × String) × List (String × ℚ)))
  | [], msgs => .ok msgs
  | nodeId :: rest, msgs =>
    if (mapFind evidence nodeId).isSome then downwardPass net evidence rest msgs
    else
      match mapFind net.nodes nodeId with
      | none => .error .unknownNode
      | some node =>
        if (mapFind net.cpts nodeId).isNone then downwardPass net evidence rest msgs
        else
          match downwardToChildren net nodeId node
              (collectParentMessages msgs nodeId node.parentIds []) evidence
              net.nodes msgs with
          | .error e => .error e
          | .ok msgs' => downwardPass net evidence rest msgs'

/-- The prior-initialisation loop of `computeBeliefs` for a parentless node
with a CPT. -/
def priorBeliefs (nodeId : String) (node : Node)
    (cpt : ConditionalProbabilityTable) :
    List ℕ → List (String × List (String × ℚ)) →
    Except BNError (List (String × List (String × ℚ)))
  | [], bs => .ok bs
  | i :: rest, bs =>
    match cpt.getProbability [] i with
    | .error e => .error e
    | .ok p =>
      priorBeliefs nodeId node cpt rest (beliefSet bs nodeId (node.states.getD i "") p)

/-- Multiply one message into a node's belief, state by state (absent
message entries are skipped). -/
def multiplyMessage (bs : List (String × List (String × ℚ))) (nodeId : String)
    (states : List String) (msg : List (String × ℚ)) :
    List (String × List (String × ℚ)) :=
  states.foldl (fun bs' st =>
    match mapFind msg st with
    | some v => beliefMul bs' nodeId st v
    | none => bs') bs

/-- The parent-message multiplication loop of `computeBeliefs`. -/
def multiplyParentMsgs (msgs : List ((String × String) × List (String × ℚ)))
    (nodeId : String) (states : List String) :
    List String → List (String × List (String × ℚ)) →
    List (String × List (String × ℚ))
  | [], bs => bs
  | parentId :: rest, bs =>
    match aFind msgs (parentId, nodeId) with
    | some msg =>
      multiplyParentMsgs msgs nodeId states rest (multiplyMessage bs nodeId states msg)
    | none => multiplyParentMsgs msgs nodeId states rest bs

/-- The child-message multiplication loop of `computeBeliefs`. -/
def multiplyChildMsgs (msgs : List ((String × String) × List (String × ℚ)))
    (nodeId : String) (states : List String) :
    List (String × Node) → List (String × List (String × ℚ)) →
    List (String × List (String × ℚ))
  | [], bs => bs
  | p :: rest, bs =>
    if p.2.hasParent nodeId then
      match aFind msgs (nodeId, p.1) with
      | some msg =>
        multiplyChildMsgs msgs nodeId states rest (multiplyMessage bs nodeId states msg)
      | none => multiplyChildMsgs msgs nodeId states rest bs
    else multiplyChildMsgs msgs nodeId states rest bs

/-- The end-of-node normalisation of `computeBeliefs` (`beliefs[nodeId]` is
default-constructed empty when absent, exactly as `operator[]` does). -/
def normalizeBeliefRow (bs : List (String × List (String × ℚ))) (nodeId : String) :
    List (String × List (String × ℚ)) :=
  mapInsert bs nodeId (normalizeRow ((mapFind bs nodeId).getD []))

/-- The whole `computeBeliefs` body for one unobserved node. -/
def computeNodeBelief (net : BayesianNetwork)
    (msgs : List ((String × String) × List (String × ℚ)))
    (nodeId : String) (node : Node)
    (bs : List (String × List (String × ℚ))) :
    Except BNError (List (String × List (String × ℚ))) :=
  let afterPrior :=
    match mapFind net.cpts nodeId with
    | some cpt =>
      if node.parentIds.isEmpty then
        priorBeliefs nodeId node cpt (List.range node.states.length) bs
      else .ok bs
    | none => .ok bs
  match afterPrior with
  | .error e => .error e
  | .ok bs1 =>
    let bs2 := multiplyParentMsgs msgs nodeId node.states node.parentIds bs1
    let bs3 := multiplyChildMsgs msgs nodeId node.states net.nodes bs2
    .ok (normalizeBeliefRow bs3 nodeId)

/-- `computeBeliefs`: per unobserved node, prior initialisation, message
multiplication, and belief normalisation. -/
def computeBeliefsLoop (net : BayesianNetwork)
    (msgs : List ((String × String) × List (String × ℚ)))
    (evidence : List (String × String)) :
    List (String × Node) → List (String × List (String × ℚ)) →
    Except BNError (List (String × List (String × ℚ)))
  | [], bs => .ok bs
  | p :: rest, bs =>
    if (mapFind evidence p.1).isSome then computeBeliefsLoop net msgs evidence rest bs
    else
      match computeNodeBelief net msgs p.1 p.2 bs with
      | .error e => .error e
      | .ok bs' => computeBeliefsLoop net msgs evidence rest bs'

/-- An influence trace (`InfluenceTrace` in the C++). -/
structure InfluenceTrace where
  sourceNode : String
  targetNode : String
  path : String
  influenceStrength : ℚ
  stateInfluences : List (String × ℚ)
  deriving DecidableEq

/-- `findPaths`, with explicit fuel (`|nodes| + 1` at the top call): DFS
over children in node-map order, skipping nodes already on the path. On an
acyclic graph a simple path has at most `|nodes| + 1` entries, so the fuel
never runs out on inputs reachable through the API. -/
def findPathsFuel (nodes : List (String × Node)) :
    ℕ → String → String → List String → List (List String)
  | 0, _, _, _ => []
  | fuel + 1, source, target, currentPath =>
    let cp := currentPath ++ [source]
    if source = target then [cp]
    else
      (nodes.filter (fun p => p.2.hasParent source && !(cp.contains p.1))).flatMap
        (fun p => findPathsFuel nodes fuel p.1 target cp)

/-- One `InfluenceTrace` record for a found path: arrow-joined path string,
strength = arithmetic mean of the query's belief row, per-state influences
= that row verbatim (an empty belief row gives `0/0`, modelled as `0`). -/
def traceForPath (beliefs : List (String × List (String × ℚ)))
    (evidenceNode queryNode : String) (path : List String) : InfluenceTrace :=
  let pathStr := evidenceNode ++ String.join ((path.drop 1).map (fun p => "->" ++ p))
  match mapFind beliefs queryNode with
  | some row =>
    { sourceNode := evidenceNode, targetNode := queryNode, path := pathStr
      influenceStrength := (row.map Prod.snd).sum / (row.length : ℚ)
      stateInfluences := row }
  | none =>
    { sourceNode := evidenceNode, targetNode := queryNode, path := pathStr
      influenceStrength := 0, stateInfluences := [] }

/-- The query loop of `traceInfluencePaths` for one evidence node. -/
def tracesForQuery (net : BayesianNetwork)
    (beliefs : List (String × List (String × ℚ))) (evidenceNode : String) :
    List String → List InfluenceTrace
  | [] => []
  | queryNode :: rest =>
    (if evidenceNode = queryNode then []
     else
       (findPathsFuel net.nodes (net.nodes.length + 1) evidenceNode queryNode []).map
         (traceForPath beliefs evidenceNode queryNode))
    ++ tracesForQuery net beliefs evidenceNode rest

/-- `traceInfluencePaths` (the evidence parameter is taken in `std::map`
entry order, like every map argument in this development). -/
def traceInfluencePaths (net : BayesianNetwork)
    (beliefs : List (String × List (String × ℚ))) (queryNodes : List String)
    (evidence : List (String × String)) : List InfluenceTrace :=
  evidence.foldl (fun acc ev => acc ++ tracesForQuery net beliefs ev.1 queryNodes) []

/-- `beliefPropagation`: initialisation, upward pass, downward pass, belief
computation, optional influence tracing. -/
def BayesianNetwork.beliefPropagation (net : BayesianNetwork)
    (queryNodes : List String) (evidence : List (String × String))
    (traceInfluence : Bool) :
    Except BNError (List (String × List (String × ℚ)) × List InfluenceTrace) :=
  let beliefs0 := initBeliefs evidence net.nodes []
  match initializeMessages net evidence net.nodes [] with
  | .error e => .error e
  | .ok msgs0 =>
    match upwardPass net evidence net.nodeOrder.reverse msgs0 with
    | .error e => .error e
    | .ok msgs1 =>
      match downwardPass net evidence net.nodeOrder msgs1 with
      | .error e => .error e
      | .ok msgs2 =>
        match computeBeliefsLoop net msgs2 evidence net.nodes beliefs0 with
        | .error e => .error e
        | .ok beliefs =>
          .ok (beliefs,
            if traceInfluence then traceInfluencePaths net beliefs queryNodes evidence
            else [])

/-! ## Reverse belief propagation (not present in the provided core) -/

/-- Modelled from the spec: the per-query-variable belief loop of
`reverseBeliefPropagation`. Spec §4.6 leaves the internal algorithm open
and suggests re-deriving beliefs solely from jointProbability-based
marginalization; each query variable's posterior row is the brute-force
enumeration restricted to that single variable. -/
def reverseBeliefsLoop (net : BayesianNetwork) (evidence : List (String × String)) :
    List String → List (String × List (String × ℚ)) →
    Except BNError (List (String × List (String × ℚ)))
  | [], bs => .ok bs
  | v :: rest, bs =>
    match net.variableElimination [v] evidence with
    | .error e => .error e
    | .ok r =>
      reverseBeliefsLoop net evidence rest
        (mapInsert bs v (r.map (fun p => ((mapFind p.1 v).getD "", p.2))))

/-- Modelled from the spec: the effect→cause trace list of
`reverseBeliefPropagation` — one trace per (evidence node, query node,
directed cause→effect path), labelled source = effect (evidence node),
target = cause (query node). -/
def reverseTracesForQuery (net : BayesianNetwork)
    (beliefs : List (String × List (String × ℚ))) (effectNode : String) :
    List String → List InfluenceTrace
  | [] => []
  | q :: rest =>
    (if effectNode = q then []
     else
       (findPathsFuel net.nodes (net.nodes.length + 1) q effectNode []).map
         (fun path => traceForPath beliefs effectNode q path.reverse))
    ++ reverseTracesForQuery net beliefs effectNode rest

/-- Modelled from the spec: `reverseBeliefPropagation` is invoked by the
demo and the test suites with the same signature shape as
`beliefPropagation`, but its body is not present in the provided core.
Following spec §4.6, beliefs over the query (cause) variables given the
downstream (effect) evidence are re-derived from jointProbability-based
marginalization, and the traces are labelled effect→cause. -/
def BayesianNetwork.reverseBeliefPropagation (net : BayesianNetwork)
    (queryNodes : List String) (evidence : List (String × String))
    (traceInfluence : Bool) :
    Except BNError (List (String × List (String × ℚ)) × List InfluenceTrace) :=
  match reverseBeliefsLoop net evidence queryNodes [] with
  | .error e => .error e
  | .ok beliefs =>
    .ok (beliefs,
      if traceInfluence then
        evidence.foldl (fun acc ev => acc ++ reverseTracesForQuery net beliefs ev.1 queryNodes) []
      else [])

/-! ## Network well-formedness -/

/-- Invariant of every network reachable through the public API: the node
and CPT maps are sorted with unique keys, every node's parent set is a
strictly sorted list, every parent id names an existing node, and no node
is its own parent. -/
def BayesianNetwork.WF (net : BayesianNetwork) : Prop :=
  MapWF net.nodes ∧ MapWF net.cpts ∧
    (∀ p ∈ net.nodes, SSorted p.2.parentIds) ∧
    (∀ p ∈ net.nodes, ∀ q ∈ p.2.parentIds, q ∈ net.nodes.map Prod.fst ∧ q ≠ p.1)

/-! ## Correctness of the topological sort -/

/-- Value of the in-degree table at a key (`0` on a miss). -/
def inDegVal (inDeg : List (String × Int)) (k : String) : Int :=
  (mapFind inDeg k).getD 0

/-- The parent set of a node id in a node map (`[]` on a miss). -/
def parentsOf (nodes : List (String × Node)) (k : String) : List String :=
  ((mapFind nodes k).map Node.parentIds).getD []

/-- Number of parents already placed in `result`. -/
def countPlaced (parents result : List String) : ℕ :=
  (parents.filter (fun a => decide (a ∈ result))).length

/-- The loop invariant of Kahn's algorithm over the fixed node map: the
in-degree table is keyed exactly by the node ids; placed and queued ids are
distinct existing ids; each in-degree equals the parent count minus the
parents already placed; queued ids have all parents placed; placed ids have
all parents placed strictly before them. -/
def KahnInv (nodes : List (String × Node)) (inDeg : List (String × Int))
    (queue result : List String) : Prop :=
  inDeg.map Prod.fst = nodes.map Prod.fst ∧
  (result ++ queue).Nodup ∧
  (∀ x ∈ result ++ queue, x ∈ nodes.map Prod.fst) ∧
  (∀ p ∈ nodes, inDegVal inDeg p.1 =
      (p.2.parentIds.length : Int) - (countPlaced p.2.parentIds result : Int)) ∧
  (∀ x ∈ queue, ∀ q ∈ parentsOf nodes x, q ∈ result) ∧
  (∀ i (h : i < result.length), ∀ q ∈ parentsOf nodes (result.get ⟨i, h⟩),
      q ∈ result.take i)

/-! ## Insertion-order independence of the parent sets -/

/-- Fold a list of edges through `addEdge`, requiring every call to
succeed. -/
def addEdgesAll (net : BayesianNetwork) : List (String × String) → Option BayesianNetwork
  | [] => some net
  | e :: rest =>
    match net.addEdge e.1 e.2 with
    | (.ok _, net') => addEdgesAll net' rest
    | (.error _, _) => none

/-- Effect of one successful `addEdge` on the node map. -/
def applyEdge (nodes : List (String × Node)) (e : String × String) :
    List (String × Node) :=
  mapUpdate nodes e.2 (fun n => n.addParent e.1)

instance {ε α : Type} [DecidableEq ε] [DecidableEq α] : DecidableEq (Except ε α) := fun a b =>
  match a, b with
  | .ok x, .ok y => if h : x = y then isTrue (by rw [h]) else isFalse (by simp [h])
  | .error x, .error y => if h : x = y then isTrue (by rw [h]) else isFalse (by simp [h])
  | .ok _, .error _ => isFalse (by simp)
  | .error _, .ok _ => isFalse (by simp)

/-! ## Enumeration: error skipping and normalisation -/

/-- The mass one complete assignment contributes to the enumeration: its
joint probability, or `0` when the joint evaluation throws. -/
def jointMass (net : BayesianNetwork) (a : List (String × String)) : ℚ :=
  ((net.computeJointProbability a).toOption).getD 0

/-- One-node network: node `A` (display name `A`, single state `t`), no
CPT — exactly the state produced by one `addNode` call on the empty
network (checked in the counterexample below). -/
def c3net : BayesianNetwork :=
  { nodes := [("A", { name := "A", states := ["t"], parentIds := [] })],
    cpts := [], nodeOrder := ["A"] }

/-- The tensor reached by `ProbabilityTensor({1})` followed by
`setProbability({}, 0, 1e-11)`: its single slice is not all-zero, yet its
sum `1e-11` is at or below the `1e-10` normalisation threshold. -/
def c6t : ConditionalProbabilityTable :=
  ((ConditionalProbabilityTable.ofDims [1]).setProbability [] 0 (1/10^11)).2

/-- Literal well-formed one-entry tensor holding probability `1`. -/
def c6w : ConditionalProbabilityTable :=
  { probabilities := [1], dimensions := [1], strides := [1], totalSize := 1 }

/-- Three-node network `A → C ← B` with disjoint parent state
vocabularies (`A:{a0}`, `B:{b0}`, `C:{c0}`) and a CPT installed on `C` —
exactly the state reached by three `addNode` calls, two `addEdge` calls
and one `setCPT` call (checked in the theorem below). -/
def c5net : BayesianNetwork :=
  { nodes := [("A", { name := "A", states := ["a0"], parentIds := [] }),
              ("B", { name := "B", states := ["b0"], parentIds := [] }),
              ("C", { name := "C", states := ["c0"], parentIds := ["A", "B"] })],
    cpts := [("C", ConditionalProbabilityTable.ofDims [1, 1, 1])],
    nodeOrder := ["A", "B", "C"] }

/-- One-node network `A` (state `t`) whose CPT is all-zero — the state
reached by one `addNode` and one `setCPT` of a freshly-constructed
(zero-initialised) tensor. -/
def c4net : BayesianNetwork :=
  { nodes := [("A", { name := "A", states := ["t"], parentIds := [] })],
    cpts := [("A", ConditionalProbabilityTable.ofDims [1])],
    nodeOrder := ["A"] }

/-- One-node network `A` (state `t`) with the unit CPT `[1]`. -/
def c4w : BayesianNetwork :=
  { nodes := [("A", { name := "A", states := ["t"], parentIds := [] })],
    cpts := [("A", { probabilities := [1], dimensions := [1],
                     strides := [1], totalSize := 1 })],
    nodeOrder := ["A"] }

/-- Two-node network `A → B`, as reached by two `addNode` calls and one
`addEdge` call. -/
def c2net : BayesianNetwork :=
  { nodes := [("A", { name := "A", states := ["t"], parentIds := [] }),
              ("B", { name := "B", states := ["t"], parentIds := ["A"] })],
    cpts := [], nodeOrder := ["A", "B"] }

/-- Three parentless nodes `A`, `B`, `C`, as reached by three `addNode`
calls. -/
def c1base : BayesianNetwork :=
  { nodes := [("A", { name := "A", states := ["t"], parentIds := [] }),
              ("B", { name := "B", states := ["t"], parentIds := [] }),
              ("C", { name := "C", states := ["t"], parentIds := [] })],
    cpts := [], nodeOrder := ["A", "B", "C"] }

/-- The network after wiring `A → C` and `B → C` on `c1base`. -/
def c1m : BayesianNetwork :=
  { nodes := [("A", { name := "A", states := ["t"], parentIds := [] }),
              ("B", { name := "B", states := ["t"], parentIds := [] }),
              ("C", { name := "C", states := ["t"], parentIds := ["A", "B"] })],
    cpts := [], nodeOrder := ["A", "B", "C"] }

theorem strLtAux_irrefl : ∀ l, strLtAux l l = false
  | [] => rfl
  | a :: as => by simp [strLtAux, strLtAux_irrefl as]

theorem strLtAux_asymm : ∀ {l₁ l₂}, strLtAux l₁ l₂ = true → strLtAux l₂ l₁ = false
  | [], [], h => by simp [strLtAux] at h
  | [], _ :: _, _ => rfl
  | _ :: _, [], h => by simp [strLtAux] at h
  | a :: as, b :: bs, h => by
    simp only [strLtAux] at h ⊢
    rcases Nat.lt_trichotomy a.toNat b.toNat with hab | hab | hab
    · simp [hab, Nat.not_lt.mpr (Nat.le_of_lt hab)]
    · simp [hab, Nat.lt_irrefl] at h ⊢
      exact strLtAux_asymm h
    · simp [hab, Nat.not_lt.mpr (Nat.le_of_lt hab)] at h

theorem strLtAux_eq_of_not : ∀ {l₁ l₂}, strLtAux l₁ l₂ = false → strLtAux l₂ l₁ = false → l₁ = l₂
  | [], [], _, _ => rfl
  | [], _ :: _, h, _ => by simp [strLtAux] at h
  | _ :: _, [], _, h => by simp [strLtAux] at h
  | a :: as, b :: bs, h₁, h₂ => by
    simp only [strLtAux] at h₁ h₂
    rcases Nat.lt_trichotomy a.toNat b.toNat with hab | hab | hab
    · simp [hab] at h₁
    · have ha : a = b := Char.ext (UInt32.ext hab)
      subst ha
      simp [Nat.lt_irrefl] at h₁ h₂
      exact congrArg (a :: ·) (strLtAux_eq_of_not h₁ h₂)
    · simp [hab, Nat.not_lt.mpr (Nat.le_of_lt hab)] at h₂

theorem strLtAux_trans : ∀ {l₁ l₂ l₃},
    strLtAux l₁ l₂ = true → strLtAux l₂ l₃ = true → strLtAux l₁ l₃ = true
  | [], [], _, h, _ => by simp [strLtAux] at h
  | [], _ :: _, [], _, h => by simp [strLtAux] at h
  | [], _ :: _, _ :: _, _, _ => rfl
  | _ :: _, [], _, h, _ => by simp [strLtAux] at h
  | _ :: _, _ :: _, [], _, h => by simp [strLtAux] at h
  | a :: as, b :: bs, c :: cs, h₁, h₂ => by
    simp only [strLtAux] at h₁ h₂ ⊢
    rcases Nat.lt_trichotomy a.toNat b.toNat with hab | hab | hab
    · rcases Nat.lt_trichotomy b.toNat c.toNat with hbc | hbc | hbc
      · simp [Nat.lt_trans hab hbc]
      · simp [hbc ▸ hab]
      · simp [hbc, Nat.not_lt.mpr (Nat.le_of_lt hbc)] at h₂
    · rcases Nat.lt_trichotomy b.toNat c.toNat with hbc | hbc | hbc
      · simp [hab ▸ hbc]
      · simp [hab, hbc, Nat.lt_irrefl] at h₁ h₂ ⊢
        exact strLtAux_trans h₁ h₂
      · simp [hbc, Nat.not_lt.mpr (Nat.le_of_lt hbc)] at h₂
    · simp [hab, Nat.not_lt.mpr (Nat.le_of_lt hab)] at h₁

theorem strLt_irrefl (a : String) : strLt a a = false := strLtAux_irrefl a.data

theorem strLt_asymm {a b : String} (h : strLt a b = true) : strLt b a = false :=
  strLtAux_asymm h

theorem strLt_eq_of_not {a b : String} (h₁ : strLt a b = false) (h₂ : strLt b a = false) :
    a = b :=
  String.ext (strLtAux_eq_of_not h₁ h₂)

theorem strLt_trans {a b c : String} (h₁ : strLt a b = true) (h₂ : strLt b c = true) :
    strLt a c = true :=
  strLtAux_trans h₁ h₂

theorem strLt_of_ne_of_not {a b : String} (hne : a ≠ b) (h : strLt a b = false) :
    strLt b a = true := by
  cases hba : strLt b a
  · exact absurd (strLt_eq_of_not h hba) hne
  · rfl

theorem strLt_ne {a b : String} (h : strLt a b = true) : a ≠ b := by
  intro he
  subst he
  simp [strLt_irrefl] at h

theorem SSorted.nodup {l : List String} (h : SSorted l) : l.Nodup := by
  refine h.imp ?_
  intro a b hab
  exact strLt_ne hab

theorem mem_sInsert {a x : String} : ∀ {l : List String}, a ∈ sInsert x l ↔ a = x ∨ a ∈ l
  | [] => by simp [sInsert]
  | y :: ys => by
    simp only [sInsert]
    split
    · simp [List.mem_cons]
    · split
      · next hxy => subst hxy; simp [List.mem_cons]
      · simp only [List.mem_cons, mem_sInsert]
        tauto

theorem SSorted_sInsert {x : String} : ∀ {l : List String}, SSorted l → SSorted (sInsert x l)
  | [], _ => by simp [sInsert, SSorted]
  | y :: ys, h => by
    rcases List.pairwise_cons.mp h with ⟨hy, hys⟩
    simp only [sInsert]
    split
    · next hxy =>
      refine List.pairwise_cons.mpr ⟨?_, h⟩
      intro b hb
      rcases List.mem_cons.mp hb with hb | hb
      · exact hb ▸ hxy
      · exact strLt_trans hxy (hy b hb)
    · split
      · exact h
      · next hxy hne =>
        refine List.pairwise_cons.mpr ⟨?_, SSorted_sInsert hys⟩
        intro b hb
        rcases mem_sInsert.mp hb with hb | hb
        · subst hb
          exact strLt_of_ne_of_not hne (by simpa using hxy)
        · exact hy b hb

theorem sInsert_of_mem {x : String} : ∀ {l : List String}, SSorted l → x ∈ l → sInsert x l = l
  | [], _, hm => by simp at hm
  | y :: ys, h, hm => by
    rcases List.pairwise_cons.mp h with ⟨hy, hys⟩
    simp only [sInsert]
    rcases List.mem_cons.mp hm with hm | hm
    · subst hm
      simp [strLt_irrefl]
    · have hyx : strLt y x = true := hy x hm
      have hne : x ≠ y := fun he => by simp [he, strLt_irrefl] at hyx
      simp [strLt_asymm hyx, hne, sInsert_of_mem hys hm]

theorem sErase_sInsert {x : String} : ∀ {l : List String}, x ∉ l → sErase x (sInsert x l) = l
  | [], _ => by simp [sInsert, sErase]
  | y :: ys, hx => by
    have hne : x ≠ y := fun he => hx (he ▸ List.mem_cons_self y ys)
    have hys : x ∉ ys := fun hm => hx (List.mem_cons_of_mem y hm)
    by_cases hxy : strLt x y = true
    · simp [sInsert, hxy, sErase]
    · simp [sInsert, hxy, hne, sErase, sErase_sInsert hys]

/-- Two strictly sorted lists with the same members are equal. -/
theorem SSorted_eq_of_mem_iff : ∀ {l₁ l₂ : List String}, SSorted l₁ → SSorted l₂ →
    (∀ x, x ∈ l₁ ↔ x ∈ l₂) → l₁ = l₂
  | [], [], _, _, _ => rfl
  | [], y :: _, _, _, hm => absurd ((hm y).mpr (List.mem_cons_self y _)) (List.not_mem_nil y)
  | x :: _, [], _, _, hm => absurd ((hm x).mp (List.mem_cons_self x _)) (List.not_mem_nil x)
  | x :: xs, y :: ys, h₁, h₂, hm => by
    rcases List.pairwise_cons.mp h₁ with ⟨hx, hxs⟩
    rcases List.pairwise_cons.mp h₂ with ⟨hy, hys⟩
    have hxy : x = y := by
      rcases List.mem_cons.mp ((hm x).mp (List.mem_cons_self x xs)) with h | h
      · exact h
      · rcases List.mem_cons.mp ((hm y).mpr (List.mem_cons_self y ys)) with h' | h'
        · exact h'.symm
        · exact absurd (hx y h') (by simp [strLt_asymm (hy x h)])
    subst hxy
    have hm' : ∀ z, z ∈ xs ↔ z ∈ ys := by
      intro z
      constructor
      · intro hz
        rcases List.mem_cons.mp ((hm z).mp (List.mem_cons_of_mem x hz)) with h | h
        · exact absurd (hx z hz) (by simp [h, strLt_irrefl])
        · exact h
      · intro hz
        rcases List.mem_cons.mp ((hm z).mpr (List.mem_cons_of_mem x hz)) with h | h
        · exact absurd (hy z hz) (by simp [h, strLt_irrefl])
        · exact h
    exact congrArg (x :: ·) (SSorted_eq_of_mem_iff hxs hys hm')

/-- Sorted insert commutes on sorted inputs. -/
theorem sInsert_comm {a b : String} {l : List String} (hl : SSorted l) :
    sInsert a (sInsert b l) = sInsert b (sInsert a l) := by
  refine SSorted_eq_of_mem_iff (SSorted_sInsert (SSorted_sInsert hl))
    (SSorted_sInsert (SSorted_sInsert hl)) ?_
  intro x
  simp only [mem_sInsert]
  tauto

theorem mapFind_eq_none {α : Type} :
    ∀ {m : List (String × α)} {k : String}, mapFind m k = none ↔ k ∉ m.map Prod.fst
  | [], _ => by simp [mapFind]
  | p :: rest, k => by
    by_cases h : p.1 = k
    · simp [mapFind, h]
    · simp [mapFind, h, mapFind_eq_none, Ne.symm h]

theorem mapFind_isSome {α : Type} {m : List (String × α)} {k : String} :
    (mapFind m k).isSome = true ↔ k ∈ m.map Prod.fst := by
  rcases h : mapFind m k with _ | v
  · simp [mapFind_eq_none.mp h]
  · simp only [Option.isSome_some, true_iff]
    by_contra hk
    simp [mapFind_eq_none.mpr hk] at h

theorem mapFind_mem {α : Type} :
    ∀ {m : List (String × α)} {k : String} {v : α}, mapFind m k = some v → (k, v) ∈ m
  | [], _, _, h => by simp [mapFind] at h
  | p :: rest, k, v, h => by
    by_cases hk : p.1 = k
    · simp only [mapFind, if_pos hk] at h
      obtain rfl := Option.some_injective _ h
      exact hk ▸ List.mem_cons_self _ _
    · simp only [mapFind, if_neg hk] at h
      exact List.mem_cons_of_mem _ (mapFind_mem h)

theorem mem_mapFind {α : Type} :
    ∀ {m : List (String × α)} {k : String} {v : α},
      (m.map Prod.fst).Nodup → (k, v) ∈ m → mapFind m k = some v
  | [], _, _, _, h => by simp at h
  | p :: rest, k, v, hnd, h => by
    rcases List.mem_cons.mp h with h | h
    · simp [mapFind, ← h]
    · have hk : p.1 ≠ k := by
        rintro rfl
        exact (List.nodup_cons.mp (by simpa using hnd)).1
          (List.mem_map_of_mem Prod.fst h)
      simp only [mapFind, if_neg hk]
      exact mem_mapFind (List.nodup_cons.mp (by simpa using hnd)).2 h

theorem mapInsert_keys {α : Type} :
    ∀ {m : List (String × α)} {k : String} {v : α} {x : String},
      x ∈ (mapInsert m k v).map Prod.fst ↔ x = k ∨ x ∈ m.map Prod.fst
  | [], _, _, _ => by simp [mapInsert]
  | p :: rest, k, v, x => by
    by_cases h1 : strLt k p.1 = true
    · simp only [mapInsert, if_pos h1, List.map_cons, List.mem_cons]
    · by_cases h2 : k = p.1
      · subst h2
        simp [mapInsert, h1]
      · simp only [mapInsert, if_neg h1, if_neg h2, List.map_cons, List.mem_cons,
          mapInsert_keys]
        tauto

theorem MapWF_mapInsert {α : Type} {k : String} {v : α} :
    ∀ {m : List (String × α)}, MapWF m → MapWF (mapInsert m k v)
  | [], _ => by simp [mapInsert, MapWF]
  | p :: rest, h => by
    rcases List.pairwise_cons.mp h with ⟨hp, hrest⟩
    by_cases h1 : strLt k p.1 = true
    · simp only [mapInsert, if_pos h1]
      refine List.pairwise_cons.mpr ⟨?_, h⟩
      intro q hq
      rcases List.mem_cons.mp hq with hq | hq
      · exact hq ▸ h1
      · exact strLt_trans h1 (hp q hq)
    · by_cases h2 : k = p.1
      · subst h2
        simp only [mapInsert, if_neg h1, if_pos rfl]
        exact List.pairwise_cons.mpr ⟨hp, hrest⟩
      · simp only [mapInsert, if_neg h1, if_neg h2]
        refine List.pairwise_cons.mpr ⟨?_, MapWF_mapInsert hrest⟩
        intro q hq
        by_cases hqk : q.1 = k
        · exact hqk ▸ strLt_of_ne_of_not h2 (by simpa using h1)
        · rcases mapInsert_keys.mp (List.mem_map_of_mem Prod.fst hq) with hk | hk
          · exact absurd hk hqk
          · rcases List.mem_map.mp hk with ⟨q', hq', hqq'⟩
            exact hqq' ▸ hp q' hq'

theorem mapFind_mapInsert_self {α : Type} :
    ∀ {m : List (String × α)} {k : String} {v : α}, mapFind (mapInsert m k v) k = some v
  | [], _, _ => by simp [mapInsert, mapFind]
  | p :: rest, k, v => by
    by_cases h1 : strLt k p.1 = true
    · simp [mapInsert, h1, mapFind]
    · by_cases h2 : k = p.1
      · subst h2
        simp [mapInsert, h1, strLt_irrefl, mapFind]
      · simp [mapInsert, h1, h2, mapFind, Ne.symm h2, mapFind_mapInsert_self]

theorem mapFind_mapInsert_ne {α : Type} :
    ∀ {m : List (String × α)} {k k' : String} {v : α}, k ≠ k' →
      mapFind (mapInsert m k v) k' = mapFind m k'
  | [], _, _, _, hne => by simp [mapInsert, mapFind, hne]
  | p :: rest, k, k', v, hne => by
    by_cases h1 : strLt k p.1 = true
    · simp [mapInsert, h1, mapFind, hne]
    · by_cases h2 : k = p.1
      · subst h2
        simp [mapInsert, h1, mapFind, hne, Ne.symm hne]
      · simp [mapInsert, h1, h2, mapFind, mapFind_mapInsert_ne hne]

theorem mapUpdate_keys {α : Type} {m : List (String × α)} {k : String} {f : α → α} :
    (mapUpdate m k f).map Prod.fst = m.map Prod.fst := by
  induction m with
  | nil => rfl
  | cons p rest ih =>
    by_cases h : p.1 = k <;> simp [mapUpdate, h] at ih ⊢ <;> exact ih

theorem MapWF_iff_keys {α : Type} : ∀ {m : List (String × α)},
    MapWF m ↔ (m.map Prod.fst).Pairwise (fun a b => strLt a b = true)
  | [] => by simp [MapWF]
  | p :: rest => by
    constructor
    · intro h
      rcases List.pairwise_cons.mp h with ⟨h1, h2⟩
      refine List.pairwise_cons.mpr ⟨?_, MapWF_iff_keys.mp h2⟩
      intro b hb
      rcases List.mem_map.mp hb with ⟨q, hq, hqb⟩
      exact hqb ▸ h1 q hq
    · intro h
      rcases List.pairwise_cons.mp h with ⟨h1, h2⟩
      refine List.pairwise_cons.mpr ⟨?_, MapWF_iff_keys.mpr h2⟩
      intro q hq
      exact h1 q.1 (List.mem_map_of_mem _ hq)

theorem MapWF_mapUpdate {α : Type} {m : List (String × α)} {k : String} {f : α → α}
    (h : MapWF m) : MapWF (mapUpdate m k f) := by
  rw [MapWF_iff_keys, mapUpdate_keys]
  exact MapWF_iff_keys.mp h

theorem mapUpdate_comp {α : Type} {m : List (String × α)} {k : String} {f g : α → α} :
    mapUpdate (mapUpdate m k f) k g = mapUpdate m k (fun x => g (f x)) := by
  induction m with
  | nil => rfl
  | cons p rest ih =>
    simp only [mapUpdate, List.map_cons] at ih ⊢
    by_cases h : p.1 = k
    · simpa [h] using ih
    · simpa [h] using ih

theorem mapUpdate_congr {α : Type} :
    ∀ {m : List (String × α)} {k : String} {f : α → α},
      (∀ v, (k, v) ∈ m → f v = v) → mapUpdate m k f = m
  | [], _, _, _ => rfl
  | p :: rest, k, f, h => by
    have ht : mapUpdate rest k f = rest :=
      mapUpdate_congr (fun v hv => h v (List.mem_cons_of_mem _ hv))
    simp only [mapUpdate, List.map_cons] at ht ⊢
    by_cases hp : p.1 = k
    · have hv : f p.2 = p.2 := h p.2 (by rw [← hp]; exact List.mem_cons_self _ _)
      simp [hp, hv, ht]
      rw [← hp]
    · simp [hp, ht]

theorem mapFind_mapUpdate_self {α : Type} :
    ∀ (m : List (String × α)) (k : String) (f : α → α) (v : α),
      mapFind m k = some v → mapFind (mapUpdate m k f) k = some (f v)
  | [], _, _, _, h => by simp [mapFind] at h
  | p :: rest, k, f, v, h => by
    by_cases hp : p.1 = k
    · simp only [mapFind, if_pos hp] at h
      obtain rfl := Option.some_injective _ h
      simp [mapUpdate, mapFind, hp]
    · simp only [mapFind, if_neg hp] at h
      have ht := mapFind_mapUpdate_self rest k f v h
      simp only [mapUpdate, List.map_cons] at ht ⊢
      simp [mapFind, hp, ht]

theorem mapFind_mapUpdate_ne {α : Type} {k k' : String} (hne : k ≠ k') :
    ∀ (m : List (String × α)) (f : α → α),
      mapFind (mapUpdate m k f) k' = mapFind m k'
  | [], _ => rfl
  | p :: rest, f => by
    have ht := mapFind_mapUpdate_ne hne rest f
    simp only [mapUpdate, List.map_cons] at ht ⊢
    by_cases hp : p.1 = k
    · simp [mapFind, hp, hne, ht]
    · simp only [if_neg hp, mapFind]
      by_cases hk' : p.1 = k'
      · simp [hk']
      · simp [hk', ht]

theorem Node.hasParent_iff {n : Node} {p : String} :
    n.hasParent p = true ↔ p ∈ n.parentIds := by
  simp [Node.hasParent]

theorem ConditionalProbabilityTable.ofDims_WF (dims : List ℕ) :
    (ConditionalProbabilityTable.ofDims dims).WF :=
  ⟨rfl, List.length_replicate _ _, rfl⟩

theorem ConditionalProbabilityTable.setProbability_WF
    {t : ConditionalProbabilityTable} {ps : List ℕ} {ns : ℕ} {v : ℚ} (h : t.WF) :
    (t.setProbability ps ns v).2.WF := by
  unfold ConditionalProbabilityTable.setProbability
  split
  · exact h
  · split
    · exact h
    · exact ⟨h.1, by simpa using h.2.1, h.2.2⟩

theorem BayesianNetwork.empty_WF : BayesianNetwork.empty.WF :=
  ⟨List.Pairwise.nil, List.Pairwise.nil, by simp [BayesianNetwork.empty],
    by simp [BayesianNetwork.empty]⟩

theorem mem_mapInsert {α : Type} :
    ∀ {m : List (String × α)} {k : String} {v : α} {q : String × α},
      q ∈ mapInsert m k v → q = (k, v) ∨ q ∈ m
  | [], _, _, _, h => by simpa [mapInsert] using h
  | p :: rest, k, v, q, h => by
    by_cases h1 : strLt k p.1 = true
    · simpa [mapInsert, h1] using h
    · by_cases h2 : k = p.1
      · simp only [mapInsert, if_neg h1, if_pos h2, List.mem_cons] at h
        rcases h with h | h
        · exact Or.inl h
        · exact Or.inr (List.mem_cons_of_mem _ h)
      · simp only [mapInsert, if_neg h1, if_neg h2, List.mem_cons] at h
        rcases h with h | h
        · exact Or.inr (h ▸ List.mem_cons_self _ _)
        · rcases mem_mapInsert h with h' | h'
          · exact Or.inl h'
          · exact Or.inr (List.mem_cons_of_mem _ h')

theorem mem_mapUpdate {α : Type} {m : List (String × α)} {k : String} {f : α → α}
    {q : String × α} (h : q ∈ mapUpdate m k f) :
    ∃ q' ∈ m, q = if q'.1 = k then (q'.1, f q'.2) else q' := by
  rcases List.mem_map.mp h with ⟨q', hq', hqq'⟩
  exact ⟨q', hq', hqq'.symm⟩

theorem MapWF.keysNodup {α : Type} {m : List (String × α)} (h : MapWF m) :
    (m.map Prod.fst).Nodup :=
  (MapWF_iff_keys.mp h).imp (fun hab => strLt_ne hab)

theorem sErase_sublist {x : String} : ∀ {l : List String}, (sErase x l).Sublist l
  | [] => List.Sublist.refl []
  | y :: ys => by
    by_cases h : x = y
    · simp only [sErase, if_pos h]
      exact (List.sublist_cons_self y ys)
    · simp only [sErase, if_neg h]
      exact List.Sublist.cons₂ y sErase_sublist

theorem SSorted_sErase {x : String} {l : List String} (h : SSorted l) :
    SSorted (sErase x l) :=
  h.sublist sErase_sublist

theorem mem_sErase {x a : String} {l : List String} (h : a ∈ sErase x l) : a ∈ l :=
  sErase_sublist.mem h

/-- `addNode` preserves the network invariant (in both outcomes). -/
theorem BayesianNetwork.addNode_WF {net : BayesianNetwork}
    {nodeId nodeName : String} {states : List String} (h : net.WF) :
    (net.addNode nodeId nodeName states).2.WF := by
  obtain ⟨h1, h2, h3, h4⟩ := h
  unfold BayesianNetwork.addNode
  have hwf : ∀ net' : BayesianNetwork,
      net'.nodes = mapInsert net.nodes nodeId ⟨nodeName, states, []⟩ →
      net'.cpts = net.cpts → net'.WF := by
    intro net' hn hc
    refine ⟨hn ▸ MapWF_mapInsert h1, hc ▸ h2, ?_, ?_⟩
    · intro p hp
      rcases mem_mapInsert (hn ▸ hp) with he | he
      · rw [he]
        exact List.Pairwise.nil
      · exact h3 p he
    · intro p hp q hq
      rcases mem_mapInsert (hn ▸ hp) with he | he
      · simp [he] at hq
      · have := h4 p he q hq
        rw [hn]
        exact ⟨mapInsert_keys.mpr (Or.inr this.1), this.2⟩
  split
  · exact ⟨h1, h2, h3, h4⟩
  · split
    · exact hwf _ rfl rfl
    · exact hwf _ rfl rfl

/-- `addEdge` preserves the network invariant (in all outcomes, including
the rollback state left behind by a cycle error). -/
theorem BayesianNetwork.addEdge_WF {net : BayesianNetwork}
    {parentId childId : String} (h : net.WF) :
    (net.addEdge parentId childId).2.WF := by
  obtain ⟨h1, h2, h3, h4⟩ := h
  unfold BayesianNetwork.addEdge
  split
  · exact ⟨h1, h2, h3, h4⟩
  · split
    · exact ⟨h1, h2, h3, h4⟩
    · split
      · exact ⟨h1, h2, h3, h4⟩
      · next hparent hchild hne =>
        have hparentMem : parentId ∈ net.nodes.map Prod.fst := by
          rcases ho : mapFind net.nodes parentId with _ | v
          · simp [ho] at hparent
          · exact List.mem_map_of_mem Prod.fst (mapFind_mem ho)
        have hadd : ∀ p ∈ mapUpdate net.nodes childId (fun n => n.addParent parentId),
            SSorted p.2.parentIds ∧
            ∀ q ∈ p.2.parentIds, q ∈ net.nodes.map Prod.fst ∧ q ≠ p.1 := by
          intro p hp
          rcases mem_mapUpdate hp with ⟨q', hq', hqe⟩
          by_cases hc : q'.1 = childId
          · rw [if_pos hc] at hqe
            subst hqe
            refine ⟨SSorted_sInsert (h3 q' hq'), ?_⟩
            intro q hq
            rcases mem_sInsert.mp hq with he | he
            · subst he
              exact ⟨hparentMem, by simpa [hc] using hne⟩
            · exact h4 q' hq' q he
          · rw [if_neg hc] at hqe
            rw [hqe]
            exact ⟨h3 q' hq', h4 q' hq'⟩
        split
        · -- success: committed edge
          refine ⟨?_, ?_, ?_, ?_⟩ <;> dsimp only
          · exact MapWF_mapUpdate h1
          · exact h2
          · intro p hp
            exact (hadd p hp).1
          · intro p hp q hq
            have := (hadd p hp).2 q hq
            rw [mapUpdate_keys]
            exact this
        · -- cycle: rolled-back state
          refine ⟨?_, ?_, ?_, ?_⟩ <;> dsimp only
          · rw [mapUpdate_comp]
            exact MapWF_mapUpdate h1
          · exact h2
          · intro p hp
            rw [mapUpdate_comp] at hp
            rcases mem_mapUpdate hp with ⟨q', hq', hqe⟩
            by_cases hc : q'.1 = childId
            · rw [if_pos hc] at hqe
              subst hqe
              exact SSorted_sErase (SSorted_sInsert (h3 q' hq'))
            · rw [if_neg hc] at hqe
              rw [hqe]
              exact h3 q' hq'
          · intro p hp q hq
            rw [mapUpdate_comp] at hp
            rw [mapUpdate_comp, mapUpdate_keys]
            rcases mem_mapUpdate hp with ⟨q', hq', hqe⟩
            by_cases hc : q'.1 = childId
            · rw [if_pos hc] at hqe
              subst hqe
              simp only [Node.removeParent, Node.addParent] at hq
              rcases mem_sInsert.mp (mem_sErase hq) with he | he
              · subst he
                exact ⟨hparentMem, by simpa [hc] using hne⟩
              · exact h4 q' hq' q he
            · rw [if_neg hc] at hqe
              rw [hqe] at hq ⊢
              exact h4 q' hq' q hq

/-- `setCPT` preserves the network invariant. -/
theorem BayesianNetwork.setCPT_WF {net : BayesianNetwork} {nodeId : String}
    {cpt : ConditionalProbabilityTable} (h : net.WF) :
    (net.setCPT nodeId cpt).2.WF := by
  obtain ⟨h1, h2, h3, h4⟩ := h
  unfold BayesianNetwork.setCPT
  split
  · exact ⟨h1, h2, h3, h4⟩
  · exact ⟨h1, MapWF_mapInsert h2, h3, h4⟩

theorem bumpInDeg_keys : ∀ {l : List (String × Int)} {id : String},
    (bumpInDeg l id).1.map Prod.fst = l.map Prod.fst
  | [], _ => rfl
  | p :: rest, id => by
    by_cases h : p.1 = id
    · simp [bumpInDeg, h]
    · simp [bumpInDeg, h, bumpInDeg_keys]

theorem bumpInDeg_val_self : ∀ {l : List (String × Int)} {id : String},
    inDegVal (bumpInDeg l id).1 id = inDegVal l id -
      (if id ∈ l.map Prod.fst then 1 else 0)
  | [], _ => by simp [bumpInDeg, inDegVal, mapFind]
  | p :: rest, id => by
    by_cases hp : p.1 = id
    · simp only [bumpInDeg, if_pos hp]
      simp [inDegVal, mapFind, hp]
    · have hik : id ≠ p.1 := fun h => hp h.symm
      simp only [bumpInDeg, if_neg hp]
      have hv := @bumpInDeg_val_self rest id
      simp only [inDegVal, mapFind, if_neg hp] at hv ⊢
      rw [hv, List.map_cons]
      have hiff : (id ∈ p.1 :: List.map Prod.fst rest) ↔ id ∈ List.map Prod.fst rest := by
        simp [List.mem_cons, hik]
      rw [if_congr hiff rfl rfl]

theorem bumpInDeg_val_ne : ∀ {l : List (String × Int)} {id k : String}, k ≠ id →
    inDegVal (bumpInDeg l id).1 k = inDegVal l k
  | [], _, _, _ => rfl
  | p :: rest, id, k, hne => by
    by_cases hp : p.1 = id
    · have hpk : p.1 ≠ k := fun h => hne (h.symm.trans hp)
      simp only [bumpInDeg, if_pos hp]
      simp [inDegVal, mapFind, hpk]
    · simp only [bumpInDeg, if_neg hp]
      by_cases hk : p.1 = k
      · simp [inDegVal, mapFind, hk]
      · simp only [inDegVal, mapFind, if_neg hk]
        exact bumpInDeg_val_ne hne

theorem bumpInDeg_flag : ∀ {l : List (String × Int)} {id : String},
    (bumpInDeg l id).2 = true ↔ id ∈ l.map Prod.fst ∧ inDegVal l id = 1
  | [], id => by simp [bumpInDeg]
  | p :: rest, id => by
    by_cases hp : p.1 = id
    · simp only [bumpInDeg, if_pos hp]
      have hval : inDegVal (p :: rest) id = p.2 := by simp [inDegVal, mapFind, hp]
      rw [List.map_cons, hval]
      constructor
      · intro h
        have h2 : p.2 - 1 = 0 := by simpa using h
        exact ⟨by simp [hp], by omega⟩
      · intro h
        have h2 : p.2 = 1 := h.2
        simp [h2]
    · simp only [bumpInDeg, if_neg hp]
      rw [bumpInDeg_flag]
      have hik : id ≠ p.1 := fun h => hp h.symm
      have hv : inDegVal (p :: rest) id = inDegVal rest id := by
        simp [inDegVal, mapFind, hp]
      rw [List.map_cons, hv]
      simp [List.mem_cons, hik]

theorem processChildren_keys : ∀ {ns : List (String × Node)} {c : String}
    {inDeg : List (String × Int)},
    (processChildren ns c inDeg).1.map Prod.fst = inDeg.map Prod.fst
  | [], _, _ => rfl
  | p :: rest, c, inDeg => by
    by_cases h : p.2.hasParent c
    · simp only [processChildren, if_pos h]
      rw [processChildren_keys, bumpInDeg_keys]
    · simp only [processChildren, if_neg h]
      exact processChildren_keys

/-- Keys that no `ns` entry declares as a child of `c` keep their
in-degree. -/
theorem processChildren_val_untouched : ∀ {ns : List (String × Node)} {c : String}
    {inDeg : List (String × Int)} {k : String},
    (∀ node, (k, node) ∈ ns → c ∉ node.parentIds) →
    inDegVal (processChildren ns c inDeg).1 k = inDegVal inDeg k
  | [], _, _, _, _ => rfl
  | p :: rest, c, inDeg, k, hnot => by
    have hrest : ∀ node, (k, node) ∈ rest → c ∉ node.parentIds :=
      fun node hm => hnot node (List.mem_cons_of_mem _ hm)
    by_cases h : p.2.hasParent c
    · have hpk : k ≠ p.1 := by
        intro he
        exact hnot p.2 (by rw [he]; exact List.mem_cons_self p rest)
          (Node.hasParent_iff.mp h)
      simp only [processChildren, if_pos h]
      rw [processChildren_val_untouched hrest, bumpInDeg_val_ne hpk]
    · simp only [processChildren, if_neg h]
      exact processChildren_val_untouched hrest

/-- A child of `c` listed in `ns` (unique keys, all present in the table)
gets its in-degree decremented exactly once. -/
theorem processChildren_val_mem : ∀ {ns : List (String × Node)} {c : String}
    {inDeg : List (String × Int)} {k : String} {node : Node},
    (ns.map Prod.fst).Nodup → (∀ x ∈ ns.map Prod.fst, x ∈ inDeg.map Prod.fst) →
    (k, node) ∈ ns → c ∈ node.parentIds →
    inDegVal (processChildren ns c inDeg).1 k = inDegVal inDeg k - 1
  | [], _, _, _, _, _, _, hmem, _ => by simp at hmem
  | p :: rest, c, inDeg, k, node, hnd, hsub, hmem, hc => by
    rw [List.map_cons] at hnd
    have hnd' : (rest.map Prod.fst).Nodup := (List.nodup_cons.mp hnd).2
    have hp1 : p.1 ∉ rest.map Prod.fst := (List.nodup_cons.mp hnd).1
    rcases List.mem_cons.mp hmem with he | he
    · -- the head is the decremented child
      have hk : p.1 = k := congrArg Prod.fst he.symm
      have hpar : p.2.hasParent c = true := by
        rw [Node.hasParent_iff]
        have hn : node = p.2 := congrArg Prod.snd he
        exact hn ▸ hc
      simp only [processChildren, if_pos hpar]
      have hnone : ∀ node', (k, node') ∈ rest → c ∉ node'.parentIds := by
        intro node' hmem' _
        exact hp1 (hk ▸ List.mem_map_of_mem Prod.fst hmem')
      rw [processChildren_val_untouched hnone, hk]
      have hkmem : k ∈ inDeg.map Prod.fst := hsub k (by simp [← hk])
      rw [bumpInDeg_val_self]
      simp [hkmem]
    · -- the child sits in the tail
      have hpk : k ≠ p.1 := by
        intro heq
        exact hp1 (heq ▸ List.mem_map_of_mem Prod.fst he)
      by_cases h : p.2.hasParent c
      · simp only [processChildren, if_pos h]
        have hsub' : ∀ x ∈ rest.map Prod.fst, x ∈ (bumpInDeg inDeg p.1).1.map Prod.fst := by
          intro x hx
          rw [bumpInDeg_keys]
          exact hsub x (by simp [hx])
        rw [processChildren_val_mem hnd' hsub' he hc, bumpInDeg_val_ne hpk]
      · simp only [processChildren, if_neg h]
        exact processChildren_val_mem hnd' (fun x hx => hsub x (by simp [hx])) he hc

/-- The nodes pushed by one `processChildren` run are exactly the children
of `c` whose in-degree was `1` beforehand, in node-map order. -/
theorem processChildren_pushed : ∀ {ns : List (String × Node)} {c : String}
    {inDeg : List (String × Int)},
    (ns.map Prod.fst).Nodup → (∀ x ∈ ns.map Prod.fst, x ∈ inDeg.map Prod.fst) →
    (processChildren ns c inDeg).2 =
      (ns.filter (fun p => p.2.hasParent c && (inDegVal inDeg p.1 == 1))).map Prod.fst
  | [], _, _, _, _ => rfl
  | p :: rest, c, inDeg, hnd, hsub => by
    rw [List.map_cons] at hnd
    have hnd' : (rest.map Prod.fst).Nodup := (List.nodup_cons.mp hnd).2
    have hp1 : p.1 ∉ rest.map Prod.fst := (List.nodup_cons.mp hnd).1
    by_cases h : p.2.hasParent c
    · simp only [processChildren, if_pos h]
      have hsub' : ∀ x ∈ rest.map Prod.fst, x ∈ (bumpInDeg inDeg p.1).1.map Prod.fst := by
        intro x hx
        rw [bumpInDeg_keys]
        exact hsub x (by simp [hx])
      rw [processChildren_pushed hnd' hsub']
      have hfc : rest.filter (fun q => q.2.hasParent c &&
            (inDegVal (bumpInDeg inDeg p.1).1 q.1 == 1)) =
          rest.filter (fun q => q.2.hasParent c && (inDegVal inDeg q.1 == 1)) := by
        apply List.filter_congr
        intro q hq
        have hq1 : q.1 ≠ p.1 := by
          intro heq
          exact hp1 (heq ▸ List.mem_map_of_mem Prod.fst hq)
        rw [bumpInDeg_val_ne hq1]
      rw [hfc]
      by_cases hflag : (bumpInDeg inDeg p.1).2 = true
      · have h1 : inDegVal inDeg p.1 = 1 := (bumpInDeg_flag.mp hflag).2
        simp [List.filter_cons, h, h1, hflag]
      · have h1 : ¬ inDegVal inDeg p.1 = 1 := by
          intro heq
          exact hflag (bumpInDeg_flag.mpr ⟨hsub p.1 (by simp), heq⟩)
        simp only [Bool.not_eq_true] at hflag
        simp [List.filter_cons, h, h1, hflag]
    · simp only [processChildren, if_neg h]
      rw [processChildren_pushed hnd' (fun x hx => hsub x (by simp [hx]))]
      simp [List.filter_cons, h]

theorem countPlaced_le (parents result : List String) :
    countPlaced parents result ≤ parents.length :=
  List.length_filter_le _ _

theorem countPlaced_eq_length_iff {parents result : List String} :
    countPlaced parents result = parents.length ↔ ∀ a ∈ parents, a ∈ result := by
  unfold countPlaced
  constructor
  · intro h a ha
    have heq : parents.filter (fun a => decide (a ∈ result)) = parents :=
      (List.filter_sublist parents).eq_of_length h
    rcases List.mem_filter.mp (heq.symm ▸ ha) with ⟨_, hc⟩
    simpa using hc
  · intro h
    have heq : parents.filter (fun a => decide (a ∈ result)) = parents := by
      apply List.filter_eq_self.mpr
      intro a ha
      simpa using h a ha
    rw [heq]

theorem countPlaced_append_mem {parents result : List String} {x : String}
    (hx : x ∈ parents) (hnd : parents.Nodup) (hxr : x ∉ result) :
    countPlaced parents (result ++ [x]) = countPlaced parents result + 1 := by
  unfold countPlaced
  induction parents with
  | nil => simp at hx
  | cons a ps ih =>
    rcases List.nodup_cons.mp hnd with ⟨hap, hps⟩
    rcases List.mem_cons.mp hx with he | he
    · subst he
      have hfc : ps.filter (fun b => decide (b ∈ result ++ [x])) =
          ps.filter (fun b => decide (b ∈ result)) := by
        apply List.filter_congr
        intro b hb
        have hbx : b ≠ x := fun h => hap (h ▸ hb)
        simp [List.mem_append, hbx]
      have hin : decide (x ∈ result ++ [x]) = true := by simp
      have hout : decide (x ∈ result) = false := by simpa using hxr
      rw [List.filter_cons, List.filter_cons, hin, hout, hfc]
      simp
    · have hax : a ≠ x := fun h => hap (h ▸ he)
      have hrec := ih he hps
      by_cases har : a ∈ result
      · have h2 : decide (a ∈ result ++ [x]) = true := by simp [har]
        have h3 : decide (a ∈ result) = true := by simp [har]
        rw [List.filter_cons, List.filter_cons, h2, h3]
        simp only [if_true, List.length_cons]
        omega
      · have h2 : decide (a ∈ result ++ [x]) = false := by
          simp [List.mem_append, har, hax]
        have h3 : decide (a ∈ result) = false := by simpa using har
        rw [List.filter_cons, List.filter_cons, h2, h3]
        simpa using hrec

theorem countPlaced_append_notMem {parents result : List String} {x : String}
    (hx : x ∉ parents) :
    countPlaced parents (result ++ [x]) = countPlaced parents result := by
  unfold countPlaced
  congr 1
  apply List.filter_congr
  intro b hb
  have hbx : b ≠ x := fun h => hx (h ▸ hb)
  simp [List.mem_append, hbx]

theorem parentsOf_eq {nodes : List (String × Node)} {p : String × Node}
    (hkeys : (nodes.map Prod.fst).Nodup) (hp : p ∈ nodes) :
    parentsOf nodes p.1 = p.2.parentIds := by
  unfold parentsOf
  rw [mem_mapFind hkeys hp]
  rfl

/-- Every id placed in the result has all its parents placed. -/
theorem placed_parents_subset {nodes : List (String × Node)}
    {result : List String} {x : String}
    (h6 : ∀ i (h : i < result.length), ∀ q ∈ parentsOf nodes (result.get ⟨i, h⟩),
        q ∈ result.take i)
    (hx : x ∈ result) : ∀ q ∈ parentsOf nodes x, q ∈ result := by
  intro q hq
  rcases List.mem_iff_get.mp hx with ⟨⟨i, hi⟩, hget⟩
  have := h6 i hi q (by rw [hget]; exact hq)
  exact (List.take_subset i result) this

/-- One iteration of Kahn's loop preserves the invariant. -/
theorem KahnInv_step {nodes : List (String × Node)}
    (hkeys : (nodes.map Prod.fst).Nodup)
    (hpar : ∀ p ∈ nodes, p.2.parentIds.Nodup)
    {inDeg : List (String × Int)} {current : String} {q result : List String}
    (hinv : KahnInv nodes inDeg (current :: q) result) :
    KahnInv nodes (processChildren nodes current inDeg).1
      (q ++ (processChildren nodes current inDeg).2) (result ++ [current]) := by
  obtain ⟨h1, h2, h3, h4, h5, h6⟩ := hinv
  have hsub : ∀ x ∈ nodes.map Prod.fst, x ∈ inDeg.map Prod.fst := by
    intro x hx
    rw [h1]
    exact hx
  have hcurq : current ∈ current :: q := List.mem_cons_self _ _
  have hcur : current ∈ nodes.map Prod.fst := h3 current (List.mem_append_right _ hcurq)
  have hcurnr : current ∉ result := by
    have := List.disjoint_of_nodup_append h2
    exact fun hr => this hr hcurq
  have hpushed := @processChildren_pushed _ current _ hkeys hsub
  have hpushed_sub : ∀ x ∈ (processChildren nodes current inDeg).2,
      x ∈ nodes.map Prod.fst := by
    intro x hx
    rw [hpushed] at hx
    rcases List.mem_map.mp hx with ⟨p, hp, hpx⟩
    exact hpx ▸ List.mem_map_of_mem Prod.fst (List.mem_of_mem_filter hp)
  -- characterisation of a pushed id
  have hpushed_mem : ∀ x ∈ (processChildren nodes current inDeg).2,
      ∃ p ∈ nodes, p.1 = x ∧ current ∈ p.2.parentIds ∧ inDegVal inDeg x = 1 := by
    intro x hx
    rw [hpushed] at hx
    rcases List.mem_map.mp hx with ⟨p, hp, hpx⟩
    rcases List.mem_filter.mp hp with ⟨hpn, hcond⟩
    simp only [Bool.and_eq_true] at hcond
    rcases hcond with ⟨hhas, hval⟩
    exact ⟨p, hpn, hpx, Node.hasParent_iff.mp hhas, hpx ▸ (by simpa using hval)⟩
  -- an id whose parents are all placed has in-degree 0, hence is not pushed
  have hplaced_val : ∀ p ∈ nodes, (∀ a ∈ p.2.parentIds, a ∈ result) →
      inDegVal inDeg p.1 = 0 := by
    intro p hp hall
    have hc : countPlaced p.2.parentIds result = p.2.parentIds.length :=
      countPlaced_eq_length_iff.mpr hall
    rw [h4 p hp, hc]
    omega
  have hold_parents : ∀ x ∈ result ++ current :: q, ∀ a ∈ parentsOf nodes x,
      a ∈ result := by
    intro x hx a ha
    rcases List.mem_append.mp hx with hx | hx
    · exact placed_parents_subset h6 hx a ha
    · exact h5 x hx a ha
  have hdisj : ∀ x ∈ (processChildren nodes current inDeg).2,
      x ∉ result ++ current :: q := by
    intro x hx hmem
    rcases hpushed_mem x hx with ⟨p, hp, hpx, _, hval⟩
    have hall : ∀ a ∈ p.2.parentIds, a ∈ result := by
      have hthis := hold_parents x hmem
      rw [← hpx, parentsOf_eq hkeys hp] at hthis
      exact hthis
    have hzero := hplaced_val p hp hall
    rw [hpx] at hzero
    omega
  have hpushed_nodup : (processChildren nodes current inDeg).2.Nodup := by
    rw [hpushed]
    exact ((List.filter_sublist nodes).map Prod.fst).nodup hkeys
  refine ⟨?_, ?_, ?_, ?_, ?_, ?_⟩
  · rw [processChildren_keys, h1]
  · -- Nodup
    have hshape : (result ++ [current]) ++ (q ++ (processChildren nodes current inDeg).2) =
        (result ++ current :: q) ++ (processChildren nodes current inDeg).2 := by
      simp
    rw [hshape, List.nodup_append]
    refine ⟨h2, hpushed_nodup, ?_⟩
    intro x hx hx'
    exact hdisj x hx' hx
  · intro x hx
    rcases List.mem_append.mp hx with hx | hx
    · rcases List.mem_append.mp hx with hx | hx
      · exact h3 x (List.mem_append_left _ hx)
      · rcases List.mem_singleton.mp hx with rfl
        exact hcur
    · rcases List.mem_append.mp hx with hx | hx
      · exact h3 x (List.mem_append_right _ (List.mem_cons_of_mem _ hx))
      · exact hpushed_sub x hx
  · -- in-degree bookkeeping
    intro p hp
    by_cases hc : current ∈ p.2.parentIds
    · rw [processChildren_val_mem hkeys hsub hp hc, h4 p hp,
        countPlaced_append_mem hc (hpar p hp) hcurnr]
      push_cast
      ring
    · have huniq : ∀ node', (p.1, node') ∈ nodes → current ∉ node'.parentIds := by
        intro node' hmem
        have he1 : mapFind nodes p.1 = some p.2 := mem_mapFind hkeys hp
        have he2 : mapFind nodes p.1 = some node' := mem_mapFind hkeys hmem
        rw [he1] at he2
        obtain rfl := Option.some_injective _ he2.symm
        exact hc
      rw [processChildren_val_untouched huniq, h4 p hp,
        countPlaced_append_notMem hc]
  · -- queued ids have all parents placed
    intro x hx a ha
    rcases List.mem_append.mp hx with hx | hx
    · exact List.mem_append_left _ (h5 x (List.mem_cons_of_mem _ hx) a ha)
    · rcases hpushed_mem x hx with ⟨p, hp, hpx, hcp, hval⟩
      have hval0 : inDegVal (processChildren nodes current inDeg).1 x = 0 := by
        rw [← hpx] at hval ⊢
        rw [processChildren_val_mem hkeys hsub hp hcp, hval]
        omega
      have hcount : countPlaced p.2.parentIds (result ++ [current]) =
          p.2.parentIds.length := by
        have hv4 : inDegVal (processChildren nodes current inDeg).1 p.1 =
            (p.2.parentIds.length : Int) -
              (countPlaced p.2.parentIds (result ++ [current]) : Int) := by
          rw [processChildren_val_mem hkeys hsub hp hcp, h4 p hp,
            countPlaced_append_mem hcp (hpar p hp) hcurnr]
          push_cast
          ring
        rw [hpx] at hv4
        rw [hval0] at hv4
        have hle := countPlaced_le p.2.parentIds (result ++ [current])
        omega
      have hall := countPlaced_eq_length_iff.mp hcount
      rw [← hpx, parentsOf_eq hkeys hp] at ha
      exact hall a ha
  · -- prefix property
    intro i hi a ha
    rcases Nat.lt_or_ge i result.length with hlt | hge
    · have hget : (result ++ [current]).get ⟨i, hi⟩ = result.get ⟨i, hlt⟩ := by
        rw [List.get_append _ hlt]
      rw [hget] at ha
      have := h6 i hlt a ha
      rwa [List.take_append_of_le_length (Nat.le_of_lt hlt)]
    · have hieq : i = result.length := by
        simp only [List.length_append, List.length_singleton] at hi
        omega
      have hget : (result ++ [current]).get ⟨i, hi⟩ = current := by
        subst hieq
        simp
      rw [hget] at ha
      have : a ∈ result := by
        have hcp := hold_parents current (List.mem_append_right _ hcurq)
        exact hcp a ha
      subst hieq
      rw [List.take_left]
      exact this

/-- Whatever the fuel, the result of Kahn's loop started from an invariant
state is duplicate-free, mentions only node ids, and places every id after
all of its parents. -/
theorem kahnLoop_spec {nodes : List (String × Node)}
    (hkeys : (nodes.map Prod.fst).Nodup)
    (hpar : ∀ p ∈ nodes, p.2.parentIds.Nodup) :
    ∀ (fuel : ℕ) (inDeg : List (String × Int)) (queue result : List String),
      KahnInv nodes inDeg queue result →
      (kahnLoop nodes fuel inDeg queue result).Nodup ∧
      (∀ x ∈ kahnLoop nodes fuel inDeg queue result, x ∈ nodes.map Prod.fst) ∧
      (∀ i (h : i < (kahnLoop nodes fuel inDeg queue result).length),
        ∀ a ∈ parentsOf nodes ((kahnLoop nodes fuel inDeg queue result).get ⟨i, h⟩),
          a ∈ (kahnLoop nodes fuel inDeg queue result).take i)
  | 0, inDeg, queue, result, hinv => by
    obtain ⟨_, h2, h3, _, _, h6⟩ := hinv
    simp only [kahnLoop]
    exact ⟨h2.sublist (List.sublist_append_left _ _),
      fun x hx => h3 x (List.mem_append_left _ hx), h6⟩
  | fuel + 1, inDeg, [], result, hinv => by
    obtain ⟨_, h2, h3, _, _, h6⟩ := hinv
    simp only [kahnLoop]
    exact ⟨h2.sublist (List.sublist_append_left _ _),
      fun x hx => h3 x (List.mem_append_left _ hx), h6⟩
  | fuel + 1, inDeg, current :: q, result, hinv => by
    simp only [kahnLoop]
    exact kahnLoop_spec hkeys hpar fuel _ _ _ (KahnInv_step hkeys hpar hinv)

/-- Two duplicate-free lists, one included in the other and at least as
long, have the same members. -/
theorem nodup_subset_length_mem {l₁ l₂ : List String} (h1 : l₁.Nodup) (h2 : l₂.Nodup)
    (hs : ∀ x ∈ l₁, x ∈ l₂) (hl : l₂.length ≤ l₁.length) : ∀ x, x ∈ l₁ ↔ x ∈ l₂ := by
  have hsubf : l₁.toFinset ⊆ l₂.toFinset := by
    intro a ha
    rw [List.mem_toFinset] at ha ⊢
    exact hs a ha
  have hcard : l₂.toFinset.card ≤ l₁.toFinset.card := by
    rw [List.toFinset_card_of_nodup h1, List.toFinset_card_of_nodup h2]
    exact hl
  have heq := Finset.eq_of_subset_of_card_le hsubf hcard
  intro x
  rw [← List.mem_toFinset, heq, List.mem_toFinset]

/-- A successful `topoSortNodes` returns a linearization: each node id
exactly once, each after all of its parents. -/
theorem topoSortNodes_spec {nodes : List (String × Node)} {res : List String}
    (hkeys : (nodes.map Prod.fst).Nodup)
    (hpar : ∀ p ∈ nodes, p.2.parentIds.Nodup)
    (h : topoSortNodes nodes = .ok res) :
    res.Nodup ∧ (∀ x, x ∈ res ↔ x ∈ nodes.map Prod.fst) ∧
    (∀ i (hi : i < res.length), ∀ a ∈ parentsOf nodes (res.get ⟨i, hi⟩),
        a ∈ res.take i) := by
  unfold topoSortNodes at h
  set inDeg := nodes.map (fun p => (p.1, (p.2.parentIds.length : Int))) with hdeg
  set q0 := (inDeg.filter (fun p => p.2 == 0)).map Prod.fst with hq0
  have hikeys : inDeg.map Prod.fst = nodes.map Prod.fst := by
    rw [hdeg, List.map_map]
    rfl
  have hinv : KahnInv nodes inDeg q0 [] := by
    refine ⟨hikeys, ?_, ?_, ?_, ?_, ?_⟩
    · simp only [List.nil_append]
      refine (List.Nodup.sublist ?_ (hikeys ▸ hkeys))
      rw [hq0]
      exact List.Sublist.map Prod.fst (List.filter_sublist inDeg)
    · intro x hx
      simp only [List.nil_append] at hx
      rw [hq0] at hx
      rcases List.mem_map.mp hx with ⟨p, hp, hpx⟩
      rw [← hikeys]
      exact hpx ▸ List.mem_map_of_mem Prod.fst (List.mem_of_mem_filter hp)
    · intro p hp
      have hm : (p.1, (p.2.parentIds.length : Int)) ∈ inDeg := by
        rw [hdeg]
        exact List.mem_map_of_mem _ hp
      have : mapFind inDeg p.1 = some (p.2.parentIds.length : Int) :=
        mem_mapFind (hikeys ▸ hkeys) hm
      simp [inDegVal, this, countPlaced]
    · intro x hx a ha
      rw [hq0] at hx
      rcases List.mem_map.mp hx with ⟨p, hp, hpx⟩
      rcases List.mem_filter.mp hp with ⟨hpd, hz⟩
      rw [hdeg] at hpd
      rcases List.mem_map.mp hpd with ⟨pn, hpn, hppn⟩
      have hsnd : p.2 = (pn.2.parentIds.length : Int) := (congrArg Prod.snd hppn).symm
      have hz' : (pn.2.parentIds.length : Int) = 0 := by
        rw [← hsnd]
        simpa using hz
      have hempty : pn.2.parentIds = [] := by
        have : pn.2.parentIds.length = 0 := by exact_mod_cast hz'
        exact List.length_eq_zero.mp this
      have hx1 : x = pn.1 := by
        rw [← hpx]
        exact (congrArg Prod.fst hppn).symm
      rw [hx1, parentsOf_eq hkeys hpn, hempty] at ha
      simp at ha
    · intro i hi
      simp at hi
  have hspec := kahnLoop_spec hkeys hpar (sumPos inDeg + q0.length + 1) inDeg q0 [] hinv
  by_cases hlen : (kahnLoop nodes (sumPos inDeg + q0.length + 1) inDeg q0 []).length
      = nodes.length
  · rw [if_pos hlen] at h
    obtain rfl := Except.ok.inj h
    obtain ⟨hnd, hmem, hpre⟩ := hspec
    refine ⟨hnd, ?_, hpre⟩
    refine nodup_subset_length_mem hnd hkeys hmem ?_
    rw [List.length_map, hlen]
  · rw [if_neg hlen] at h
    exact absurd h (by simp)

/-- Shape of a successful `addNode`: the node map gained the new entry and
the cached order is a fresh sort of it. -/
theorem addNode_ok {net : BayesianNetwork} {nodeId nodeName : String}
    {states : List String} {net' : BayesianNetwork}
    (h : net.addNode nodeId nodeName states = (.ok (), net')) :
    net'.nodes = mapInsert net.nodes nodeId ⟨nodeName, states, []⟩ ∧
    net'.cpts = net.cpts ∧
    topoSortNodes net'.nodes = .ok net'.nodeOrder := by
  unfold BayesianNetwork.addNode at h
  split at h
  · exact absurd (congrArg Prod.fst h) (by simp)
  · split at h
    · next heq =>
      have h2 := congrArg Prod.snd h
      subst h2
      exact ⟨rfl, rfl, heq⟩
    · exact absurd (congrArg Prod.fst h) (by simp)

/-- Shape of a successful `addEdge`: the parent is inserted into the
child's parent set and the cached order is a fresh sort. -/
theorem addEdge_ok {net : BayesianNetwork} {parentId childId : String}
    {net' : BayesianNetwork}
    (h : net.addEdge parentId childId = (.ok (), net')) :
    net'.nodes = mapUpdate net.nodes childId (fun n => n.addParent parentId) ∧
    net'.cpts = net.cpts ∧
    topoSortNodes net'.nodes = .ok net'.nodeOrder := by
  unfold BayesianNetwork.addEdge at h
  split at h
  · exact absurd (congrArg Prod.fst h) (by simp)
  · split at h
    · exact absurd (congrArg Prod.fst h) (by simp)
    · split at h
      · exact absurd (congrArg Prod.fst h) (by simp)
      · split at h
        · next heq =>
          have h2 := congrArg Prod.snd h
          subst h2
          exact ⟨rfl, rfl, heq⟩
        · exact absurd (congrArg Prod.fst h) (by simp)

/-- C8: after every successful structural mutation (`addNode`, `addEdge`),
the cached `topologicalOrder` contains every variable exactly once
(duplicate-free and member-equal to the node-id set) and is a valid
linearization of the current DAG: every variable appears after all of its
parents. -/
theorem C8_topologicalOrder_valid {net : BayesianNetwork} (hwf : net.WF)
    (nodeId nodeName : String) (states : List String) (parentId childId : String) :
    (∀ net', net.addNode nodeId nodeName states = (.ok (), net') →
      net'.nodeOrder.Nodup ∧
      (∀ x, x ∈ net'.nodeOrder ↔ x ∈ net'.nodes.map Prod.fst) ∧
      (∀ i (hi : i < net'.nodeOrder.length),
        ∀ a ∈ parentsOf net'.nodes (net'.nodeOrder.get ⟨i, hi⟩),
          a ∈ net'.nodeOrder.take i)) ∧
    (∀ net', net.addEdge parentId childId = (.ok (), net') →
      net'.nodeOrder.Nodup ∧
      (∀ x, x ∈ net'.nodeOrder ↔ x ∈ net'.nodes.map Prod.fst) ∧
      (∀ i (hi : i < net'.nodeOrder.length),
        ∀ a ∈ parentsOf net'.nodes (net'.nodeOrder.get ⟨i, hi⟩),
          a ∈ net'.nodeOrder.take i)) := by
  constructor
  · intro net' h
    have hwf' : net'.WF := by
      have := @BayesianNetwork.addNode_WF _ nodeId nodeName states hwf
      rw [h] at this
      exact this
    obtain ⟨_, _, hsort⟩ := addNode_ok h
    obtain ⟨hmw, _, hss, _⟩ := hwf'
    exact topoSortNodes_spec hmw.keysNodup
      (fun p hp => (hss p hp).nodup) hsort
  · intro net' h
    have hwf' : net'.WF := by
      have := @BayesianNetwork.addEdge_WF _ parentId childId hwf
      rw [h] at this
      exact this
    obtain ⟨_, _, hsort⟩ := addEdge_ok h
    obtain ⟨hmw, _, hss, _⟩ := hwf'
    exact topoSortNodes_spec hmw.keysNodup
      (fun p hp => (hss p hp).nodup) hsort

theorem Node.addParent_of_mem {n : Node} {p : String} (hs : SSorted n.parentIds)
    (hm : p ∈ n.parentIds) : n.addParent p = n := by
  cases n with
  | mk name states parentIds =>
    simp [Node.addParent, sInsert_of_mem hs hm]

theorem Node.removeParent_addParent {n : Node} {p : String}
    (hm : p ∉ n.parentIds) : (n.addParent p).removeParent p = n := by
  cases n with
  | mk name states parentIds =>
    simp [Node.addParent, Node.removeParent, sErase_sInsert hm]

/-- C2: on an acyclic network, an `addEdge` call that fails with
`CycleError` leaves the network exactly as it was — the child's parent
set, every other variable and the cached topological order are unchanged —
and the graph remains topologically sortable. -/
theorem C2_addEdge_cycle_rollback {net : BayesianNetwork} (hwf : net.WF)
    {ord₀ : List String} (hacyc : topoSortNodes net.nodes = .ok ord₀)
    {parentId childId : String} {net' : BayesianNetwork}
    (herr : net.addEdge parentId childId = (.error .cycle, net')) :
    net' = net ∧ topoSortNodes net'.nodes = .ok ord₀ := by
  obtain ⟨h1, _, h3, _⟩ := hwf
  unfold BayesianNetwork.addEdge at herr
  split at herr
  · exact absurd (congrArg Prod.fst herr) (by simp)
  · split at herr
    · exact absurd (congrArg Prod.fst herr) (by simp)
    · split at herr
      · exact absurd (congrArg Prod.fst herr) (by simp)
      · next hparent hchild hne =>
        split at herr
        · exact absurd (congrArg Prod.fst herr) (by simp)
        · next e heq =>
          have hnet' : net' = { net with
              nodes := mapUpdate (mapUpdate net.nodes childId
                  (fun n => n.addParent parentId)) childId
                  (fun n => n.removeParent parentId) } := (congrArg Prod.snd herr).symm
          rcases ho : mapFind net.nodes childId with _ | childNode
          · rw [ho] at hchild
            simp at hchild
          · have hcmem : (childId, childNode) ∈ net.nodes := mapFind_mem ho
            have huniq : ∀ v : Node, (childId, v) ∈ net.nodes → v = childNode := by
              intro v hv
              have hx := mem_mapFind h1.keysNodup hv
              rw [ho] at hx
              exact Option.some_injective _ hx.symm
            by_cases hmem : parentId ∈ childNode.parentIds
            · -- re-adding an existing edge cannot reach the cycle branch
              have hid : mapUpdate net.nodes childId (fun n => n.addParent parentId)
                  = net.nodes := by
                apply mapUpdate_congr
                intro v hv
                obtain rfl := huniq v hv
                exact Node.addParent_of_mem (h3 _ hcmem) hmem
              rw [hid, hacyc] at heq
              exact absurd heq (by simp)
            · -- genuinely new edge: erase after insert restores the node map
              have hid : mapUpdate (mapUpdate net.nodes childId
                    (fun n => n.addParent parentId)) childId
                    (fun n => n.removeParent parentId) = net.nodes := by
                rw [mapUpdate_comp]
                apply mapUpdate_congr
                intro v hv
                obtain rfl := huniq v hv
                exact Node.removeParent_addParent hmem
              have hfix : net' = net := by
                rw [hnet']
                rw [hid]
              exact ⟨hfix, by rw [hfix]; exact hacyc⟩

theorem mapUpdate_congr2 {α : Type} :
    ∀ {m : List (String × α)} {k : String} {f g : α → α},
      (∀ v, (k, v) ∈ m → f v = g v) → mapUpdate m k f = mapUpdate m k g
  | [], _, _, _, _ => rfl
  | p :: rest, k, f, g, h => by
    have ht : mapUpdate rest k f = mapUpdate rest k g :=
      mapUpdate_congr2 (fun v hv => h v (List.mem_cons_of_mem _ hv))
    simp only [mapUpdate, List.map_cons] at ht ⊢
    by_cases hp : p.1 = k
    · have hv : f p.2 = g p.2 := h p.2 (by rw [← hp]; exact List.mem_cons_self _ _)
      rw [if_pos hp, if_pos hp, hv, ht]
    · rw [if_neg hp, if_neg hp, ht]

theorem mapUpdate_comm_ne {α : Type} {m : List (String × α)} {k₁ k₂ : String}
    {f g : α → α} (hne : k₁ ≠ k₂) :
    mapUpdate (mapUpdate m k₁ f) k₂ g = mapUpdate (mapUpdate m k₂ g) k₁ f := by
  unfold mapUpdate
  rw [List.map_map, List.map_map]
  apply List.map_congr_left
  intro p _
  by_cases h1 : p.1 = k₁
  · have h1' : p.1 ≠ k₂ := by rw [h1]; exact hne
    simp [Function.comp, h1, h1', hne, Ne.symm hne]
  · by_cases h2 : p.1 = k₂
    · simp [Function.comp, h1, h2, Ne.symm hne]
    · simp [Function.comp, h1, h2]

theorem applyEdge_SSorted {nodes : List (String × Node)}
    (hs : ∀ p ∈ nodes, SSorted p.2.parentIds) (e : String × String) :
    ∀ p ∈ applyEdge nodes e, SSorted p.2.parentIds := by
  intro p hp
  rcases mem_mapUpdate hp with ⟨q, hq, hqe⟩
  by_cases hc : q.1 = e.2
  · rw [if_pos hc] at hqe
    rw [hqe]
    exact SSorted_sInsert (hs q hq)
  · rw [if_neg hc] at hqe
    rw [hqe]
    exact hs q hq

theorem applyEdge_comm {nodes : List (String × Node)}
    (hs : ∀ p ∈ nodes, SSorted p.2.parentIds) (e₁ e₂ : String × String) :
    applyEdge (applyEdge nodes e₁) e₂ = applyEdge (applyEdge nodes e₂) e₁ := by
  by_cases hc : e₁.2 = e₂.2
  · unfold applyEdge
    rw [← hc, mapUpdate_comp, mapUpdate_comp]
    apply mapUpdate_congr2
    intro v hv
    have hsv : SSorted v.parentIds := hs (e₁.2, v) hv
    cases v with
    | mk name states parentIds =>
      simp only [Node.addParent]
      rw [sInsert_comm hsv]
  · exact @mapUpdate_comm_ne _ nodes _ _ _ _ (fun h => hc h)

/-- Folding a commuting, invariant-preserving step over a permuted list
yields the same result. -/
theorem foldl_perm_invariant {α β : Type} (f : β → α → β) (P : β → Prop)
    (hpres : ∀ b a, P b → P (f b a))
    (hcomm : ∀ b a₁ a₂, P b → f (f b a₁) a₂ = f (f b a₂) a₁) :
    ∀ {l₁ l₂ : List α}, l₁.Perm l₂ → ∀ b, P b → l₁.foldl f b = l₂.foldl f b := by
  intro l₁ l₂ hperm
  induction hperm with
  | nil => intro b _; rfl
  | cons a hp ih =>
    intro b hb
    simp only [List.foldl_cons]
    exact ih (f b a) (hpres b a hb)
  | swap a₁ a₂ hp =>
    intro b hb
    simp only [List.foldl_cons]
    rw [hcomm b a₂ a₁ hb]
  | trans h12 h23 ih12 ih23 =>
    intro b hb
    rw [ih12 b hb, ih23 b hb]

/-- Characterization of a fully successful edge fold. -/
theorem addEdgesAll_ok : ∀ {es : List (String × String)} {net m : BayesianNetwork},
    addEdgesAll net es = some m →
    m.nodes = es.foldl applyEdge net.nodes ∧ m.cpts = net.cpts ∧
    (es = [] → m = net) ∧
    (es ≠ [] → topoSortNodes m.nodes = .ok m.nodeOrder)
  | [], net, m, h => by
    obtain rfl := Option.some_injective _ (by simpa [addEdgesAll] using h)
    exact ⟨rfl, rfl, fun _ => rfl, fun hne => absurd rfl hne⟩
  | e :: rest, net, m, h => by
    simp only [addEdgesAll] at h
    split at h
    · next u net₁ heq =>
      obtain ⟨hn₁, hc₁, hsort₁⟩ := by
        cases u
        exact addEdge_ok heq
      obtain ⟨hn, hc, hnil, hsort⟩ := addEdgesAll_ok h
      refine ⟨?_, hc.trans hc₁, fun habs => by simp at habs, ?_⟩
      · rw [hn, List.foldl_cons, hn₁]
        rfl
      · intro _
        rcases List.eq_nil_or_concat rest with hre | _
        · subst hre
          obtain rfl := hnil rfl
          exact hsort₁
        · rcases hrest : rest with _ | _
          · subst hrest
            obtain rfl := hnil rfl
            exact hsort₁
          · exact hsort (by simp [hrest])
    · exact absurd h (by simp)

/-- A fully successful edge fold preserves the network invariant. -/
theorem addEdgesAll_WF : ∀ {es : List (String × String)} {net m : BayesianNetwork},
    addEdgesAll net es = some m → net.WF → m.WF
  | [], net, m, h, hwf => by
    obtain rfl := Option.some_injective _ (by simpa [addEdgesAll] using h)
    exact hwf
  | e :: rest, net, m, h, hwf => by
    simp only [addEdgesAll] at h
    split at h
    · next u net₁ heq =>
      have hwf₁ : net₁.WF := by
        have := @BayesianNetwork.addEdge_WF _ e.1 e.2 hwf
        rw [heq] at this
        exact this
      exact addEdgesAll_WF h hwf₁
    · exact absurd h (by simp)

theorem BayesianNetwork.ext' {m₁ m₂ : BayesianNetwork}
    (h1 : m₁.nodes = m₂.nodes) (h2 : m₁.cpts = m₂.cpts)
    (h3 : m₁.nodeOrder = m₂.nodeOrder) : m₁ = m₂ := by
  cases m₁
  cases m₂
  simp only at h1 h2 h3
  rw [h1, h2, h3]

/-- C1: the parent-state index vector that `getConditionalProbability`
passes to the node's tensor is built by iterating the node's parent ids in
ascending-sorted order (the parent set of every node of an API-built
network is strictly sorted), and the network — hence every
`getConditionalProbability` answer — is independent of the order in which
the edges were added. -/
theorem C1_sorted_parent_order {net : BayesianNetwork} (hwf : net.WF)
    {es es' : List (String × String)} (hperm : es.Perm es')
    {m₁ m₂ : BayesianNetwork}
    (h₁ : addEdgesAll net es = some m₁) (h₂ : addEdgesAll net es' = some m₂) :
    m₁ = m₂ ∧
    (∀ nodeId node, mapFind m₁.nodes nodeId = some node → SSorted node.parentIds) ∧
    (∀ nodeId nodeState parentStates,
      m₁.getConditionalProbability nodeId nodeState parentStates =
        m₂.getConditionalProbability nodeId nodeState parentStates) := by
  obtain ⟨hn₁, hc₁, hnil₁, hsort₁⟩ := addEdgesAll_ok h₁
  obtain ⟨hn₂, hc₂, hnil₂, hsort₂⟩ := addEdgesAll_ok h₂
  have hsorted : ∀ p ∈ net.nodes, SSorted p.2.parentIds := hwf.2.2.1
  have hnodes : m₁.nodes = m₂.nodes := by
    rw [hn₁, hn₂]
    exact foldl_perm_invariant applyEdge
      (fun ns => ∀ p ∈ ns, SSorted p.2.parentIds)
      (fun ns e hs => applyEdge_SSorted hs e)
      (fun ns e₁ e₂ hs => applyEdge_comm hs e₁ e₂)
      hperm net.nodes hsorted
  have heq : m₁ = m₂ := by
    by_cases hes : es = []
    · obtain rfl := hnil₁ hes
      obtain rfl := hnil₂ (List.Perm.eq_nil (hes ▸ hperm).symm)
      rfl
    · have hne' : es' ≠ [] := fun habs => hes (List.Perm.eq_nil (habs ▸ hperm))
      have ho₁ := hsort₁ hes
      have ho₂ := hsort₂ hne'
      rw [hnodes, ho₂] at ho₁
      exact BayesianNetwork.ext' hnodes (hc₁.trans hc₂.symm)
        (Except.ok.inj ho₁).symm
  have hm₁wf : m₁.WF := addEdgesAll_WF h₁ hwf
  refine ⟨heq, ?_, ?_⟩
  · intro nodeId node hfind
    exact hm₁wf.2.2.1 (nodeId, node) (mapFind_mem hfind)
  · intro nodeId nodeState parentStates
    rw [heq]

/-! ## Flat-index arithmetic of the probability tensor -/

/-- The flat index of an in-bounds multi-index is below the entry count. -/
theorem flatIndexVal_lt_prod : ∀ {dims indices : List ℕ},
    List.Forall₂ (· < ·) indices dims →
    flatIndexVal indices (calculateStrides dims) < dims.prod
  | _, _, List.Forall₂.nil => by simp [flatIndexVal]
  | d :: dims, i :: indices, List.Forall₂.cons hi hrest => by
    have ih := flatIndexVal_lt_prod hrest
    simp only [flatIndexVal, calculateStrides, List.zip_cons_cons, List.map_cons,
      List.sum_cons, List.prod_cons] at ih ⊢
    have hstep : ∀ (x f P dd : ℕ), f < P → x < dd → x * P + f < dd * P := by
      intro x f P dd hf hx
      calc x * P + f < x * P + P := by omega
      _ = (x + 1) * P := by ring
      _ ≤ dd * P := Nat.mul_le_mul_right _ (by omega)
    exact hstep _ _ _ _ ih hi

/-- Mixed-radix uniqueness: quotient/remainder split of a flat index. -/
theorem flat_head_tail_eq {x y fx fy P : ℕ} (hfx : fx < P) (hfy : fy < P)
    (hxy : x * P + fx = y * P + fy) : x = y ∧ fx = fy := by
  have hP : 0 < P := by omega
  have h1 : (x * P + fx) / P = x := by
    rw [Nat.mul_comm x P, Nat.mul_add_div hP, Nat.div_eq_of_lt hfx, Nat.add_zero]
  have h2 : (y * P + fy) / P = y := by
    rw [Nat.mul_comm y P, Nat.mul_add_div hP, Nat.div_eq_of_lt hfy, Nat.add_zero]
  have hx : x = y := by rw [← h1, ← h2, hxy]
  exact ⟨hx, by subst hx; omega⟩

/-- The flat index is injective on in-bounds multi-indices. -/
theorem flatIndexVal_inj : ∀ {dims a b : List ℕ},
    List.Forall₂ (· < ·) a dims → List.Forall₂ (· < ·) b dims →
    flatIndexVal a (calculateStrides dims) = flatIndexVal b (calculateStrides dims) →
    a = b
  | _, _, _, List.Forall₂.nil, List.Forall₂.nil, _ => rfl
  | d :: dims, a :: as, b :: bs, List.Forall₂.cons ha has, List.Forall₂.cons hb hbs, h => by
    have hfa := flatIndexVal_lt_prod has
    have hfb := flatIndexVal_lt_prod hbs
    simp only [flatIndexVal, calculateStrides, List.zip_cons_cons, List.map_cons,
      List.sum_cons] at h hfa hfb
    obtain ⟨hab, hf⟩ := flat_head_tail_eq hfa hfb h
    subst hab
    rw [flatIndexVal_inj has hbs hf]

/-- Success shape of `getFlatIndex` on a well-formed tensor. -/
theorem getFlatIndex_ok_iff {t : ConditionalProbabilityTable} {indices : List ℕ}
    {v : ℕ} :
    t.getFlatIndex indices = .ok v ↔
      List.Forall₂ (· < ·) indices t.dimensions ∧ v = flatIndexVal indices t.strides := by
  unfold ConditionalProbabilityTable.getFlatIndex
  constructor
  · intro h
    split at h
    · next hlen =>
      split at h
      · next hall =>
        refine ⟨List.forall₂_iff_zip.mpr ⟨hlen, ?_⟩, (Except.ok.inj h).symm⟩
        intro a b hab
        have := List.all_eq_true.mp hall (a, b) hab
        simpa using this
      · exact absurd h (by simp)
    · exact absurd h (by simp)
  · intro ⟨hf, hv⟩
    obtain ⟨hlen, hzip⟩ := List.forall₂_iff_zip.mp hf
    rw [if_pos hlen, if_pos, hv]
    apply List.all_eq_true.mpr
    intro p hp
    have : p.1 < p.2 := hzip (by simpa using hp)
    simpa using this

/-- C9: on a well-formed tensor, `setProbability` with in-bounds indices
and a value in `[0,1]` succeeds, `getProbability` with the identical
indices returns exactly that value, and every other stored entry is
unchanged. -/
theorem C9_set_get_roundtrip {t : ConditionalProbabilityTable} (hwf : t.WF)
    {ps : List ℕ} {ns : ℕ} {v : ℚ}
    (hin : List.Forall₂ (· < ·) (ps ++ [ns]) t.dimensions)
    (hv : 0 ≤ v ∧ v ≤ 1) :
    (t.setProbability ps ns v).1 = .ok () ∧
    (t.setProbability ps ns v).2.getProbability ps ns = .ok v ∧
    (∀ ps' ns', List.Forall₂ (· < ·) (ps' ++ [ns']) t.dimensions →
      ¬ (ps' = ps ∧ ns' = ns) →
      (t.setProbability ps ns v).2.getProbability ps' ns' =
        t.getProbability ps' ns') := by
  obtain ⟨hstr, hlen, _⟩ := hwf
  have hidx : t.getFlatIndex (ps ++ [ns]) =
      .ok (flatIndexVal (ps ++ [ns]) t.strides) :=
    getFlatIndex_ok_iff.mpr ⟨hin, rfl⟩
  have hrange : ¬ (v < 0 ∨ v > 1) := by
    push_neg
    exact ⟨hv.1, hv.2⟩
  have hset : t.setProbability ps ns v = (.ok (),
      { t with probabilities := t.probabilities.set (flatIndexVal (ps ++ [ns]) t.strides) v }) := by
    unfold ConditionalProbabilityTable.setProbability
    rw [if_neg hrange, hidx]
  have hbound : flatIndexVal (ps ++ [ns]) t.strides < t.probabilities.length := by
    rw [hlen, hstr]
    exact flatIndexVal_lt_prod hin
  refine ⟨by rw [hset], ?_, ?_⟩
  · rw [hset]
    unfold ConditionalProbabilityTable.getProbability
    have hidx2 : ({ t with probabilities := t.probabilities.set (flatIndexVal (ps ++ [ns]) t.strides) v } : ConditionalProbabilityTable).getFlatIndex (ps ++ [ns]) =
        .ok (flatIndexVal (ps ++ [ns]) t.strides) := hidx
    rw [hidx2]
    simp only
    rw [List.getD_eq_getElem?_getD, List.getElem?_set_self (by simpa using hbound)]
    rfl
  · intro ps' ns' hin' hne
    rw [hset]
    unfold ConditionalProbabilityTable.getProbability
    have hidx2' : ({ t with probabilities := t.probabilities.set (flatIndexVal (ps ++ [ns]) t.strides) v } : ConditionalProbabilityTable).getFlatIndex (ps' ++ [ns']) =
        .ok (flatIndexVal (ps' ++ [ns']) t.strides) :=
      getFlatIndex_ok_iff.mpr ⟨hin', rfl⟩
    have hidx' : t.getFlatIndex (ps' ++ [ns']) =
        .ok (flatIndexVal (ps' ++ [ns']) t.strides) :=
      getFlatIndex_ok_iff.mpr ⟨hin', rfl⟩
    rw [hidx2', hidx']
    simp only
    have hdiff : flatIndexVal (ps' ++ [ns']) t.strides ≠
        flatIndexVal (ps ++ [ns]) t.strides := by
      intro heq
      rw [hstr] at heq
      have happ := flatIndexVal_inj hin' hin heq
      have hlens : ps'.length = ps.length := by
        have h1 := hin.length_eq
        have h2 := hin'.length_eq
        simp only [List.length_append, List.length_singleton] at h1 h2
        omega
      have := List.append_inj happ hlens
      exact hne ⟨this.1, by simpa using this.2⟩
    rw [List.getD_eq_getElem?_getD, List.getD_eq_getElem?_getD,
      List.getElem?_set_ne (fun h => hdiff h.symm)]

/-- C10: a failing `setProbability` (value out of range, an out-of-bounds
index, or a dimension-count mismatch) leaves every stored entry of the
tensor unchanged. -/
theorem C10_set_fail_no_side_effect {t : ConditionalProbabilityTable}
    {ps : List ℕ} {ns : ℕ} {v : ℚ} {e : BNError}
    (h : (t.setProbability ps ns v).1 = .error e) :
    (t.setProbability ps ns v).2 = t := by
  unfold ConditionalProbabilityTable.setProbability at h ⊢
  split at h
  · next hcond =>
    rw [if_pos hcond]
  · next hcond =>
    rw [if_neg hcond]
    split at h
    · rfl
    · exact absurd h (by simp)

theorem sumCombinations_eq : ∀ {sas : List (List (String × String))}
    {net : BayesianNetwork} {full : List (String × String)} {acc : ℚ},
    sumCombinations net full sas acc =
      acc + (sas.map (fun sa => jointMass net (insertAll full sa))).sum
  | [], _, _, _ => by simp [sumCombinations]
  | sa :: rest, net, full, acc => by
    simp only [sumCombinations]
    rcases h : net.computeJointProbability (insertAll full sa) with e | p
    · simp only [h]
      rw [sumCombinations_eq]
      simp [jointMass, h, Except.toOption]
    · simp only [h]
      rw [sumCombinations_eq]
      simp only [jointMass, h, List.map_cons, List.sum_cons, Except.toOption,
        Option.getD]
      ring

theorem gatherStateLists_ok : ∀ {nodeIds : List String} {net : BayesianNetwork},
    (∀ id ∈ nodeIds, id ∈ net.nodes.map Prod.fst) →
    ∃ ls, gatherStateLists net nodeIds = .ok ls
  | [], _, _ => ⟨[], rfl⟩
  | id :: rest, net, h => by
    rcases ho : mapFind net.nodes id with _ | node
    · have := mapFind_isSome.mpr (h id (by simp))
      rw [ho] at this
      simp at this
    · obtain ⟨ls, hls⟩ :=
        @gatherStateLists_ok rest net (fun i hi => h i (by simp [hi]))
      exact ⟨(id, node.states) :: ls, by simp [gatherStateLists, ho, hls]⟩

theorem generateAssignments_ok {net : BayesianNetwork} {nodeIds : List String}
    (h : ∀ id ∈ nodeIds, id ∈ net.nodes.map Prod.fst) :
    ∃ as, net.generateAssignments nodeIds = .ok as := by
  unfold BayesianNetwork.generateAssignments
  by_cases he : nodeIds.isEmpty
  · rw [if_pos he]
    exact ⟨[[]], rfl⟩
  · rw [if_neg he]
    obtain ⟨ls, hls⟩ := gatherStateLists_ok h
    rw [hls]
    exact ⟨genAssignmentsRec ls [], rfl⟩

theorem variableElimination_ok {net : BayesianNetwork} {qs : List String}
    {ev : List (String × String)} {qas : List (List (String × String))}
    (hq : net.generateAssignments qs = .ok qas) :
    ∃ r, net.variableElimination qs ev = .ok r := by
  have hsum : ∀ id ∈ ((net.nodes.map Prod.fst).filter
      (fun id => (mapFind ev id).isNone)).filter (fun id => !(qs.contains id)),
      id ∈ net.nodes.map Prod.fst := by
    intro id hid
    exact List.mem_of_mem_filter (List.mem_of_mem_filter hid)
  obtain ⟨sas, hsas⟩ := generateAssignments_ok hsum
  unfold BayesianNetwork.variableElimination
  simp only [hq, hsas]
  split
  · exact ⟨_, rfl⟩
  · exact ⟨_, rfl⟩

/-- C7: a per-combination error while evaluating one complete assignment's
joint probability only skips that combination (it contributes zero mass):
the accumulated mass of a query assignment is the sum over all
combinations with throwing ones counted as `0`, and the enumeration as a
whole still returns a result (it never aborts once the query assignments
are generated). -/
theorem C7_error_skips_combination {net : BayesianNetwork}
    {queryNodes : List String} {evidence : List (String × String)}
    {qas : List (List (String × String))}
    (hq : net.generateAssignments queryNodes = .ok qas) :
    (∃ r, net.variableElimination queryNodes evidence = .ok r) ∧
    (∀ (full : List (String × String)) (sas : List (List (String × String))),
      sumCombinations net full sas 0 =
        (sas.map (fun sa => jointMass net (insertAll full sa))).sum) :=
  ⟨variableElimination_ok hq,
    fun full sas => by rw [sumCombinations_eq]; ring⟩

/-- Dividing every value of a list by a constant divides the sum. -/
theorem list_sum_div : ∀ (l : List ℚ) (c : ℚ), ((l.map (· / c)).sum) = l.sum / c
  | [], c => by simp
  | x :: rest, c => by
    simp only [List.map_cons, List.sum_cons, list_sum_div rest c]
    ring

/-- The value sum of a successful enumeration: exactly `1` after
normalisation, or the raw mass (`≤ 1e-10`) when normalisation was
skipped. -/
theorem variableElimination_sum {net : BayesianNetwork} {qs : List String}
    {ev : List (String × String)} {r : List (List (String × String) × ℚ)}
    (h : net.variableElimination qs ev = .ok r) :
    (r.map Prod.snd).sum = 1 ∨ (r.map Prod.snd).sum ≤ 1/10^10 := by
  unfold BayesianNetwork.variableElimination at h
  split at h
  · exact absurd h (by simp)
  · simp only [] at h
    split at h
    · exact absurd h (by simp)
    · split at h
      · next htotal =>
        obtain rfl := Except.ok.inj h
        left
        have hmap : ∀ (l : List (List (String × String) × ℚ)) (c : ℚ),
            List.map Prod.snd (List.map (fun p => (p.1, p.2 / c)) l) =
            List.map (· / c) (List.map Prod.snd l) := by
          intro l c
          rw [List.map_map, List.map_map]
          rfl
        rw [hmap, list_sum_div]
        have hpos : (0 : ℚ) < 1/10^10 := by norm_num
        exact div_self (by linarith)
      · next htotal =>
        obtain rfl := Except.ok.inj h
        right
        exact le_of_not_lt htotal

/-- C3 (amended): the brute-force enumeration's probabilities over the
full query-assignment space sum to exactly `1` whenever the total
unnormalized mass exceeds `1e-10`; in the degenerate case (total mass
`≤ 1e-10`, e.g. an all-zero or missing CPT) normalisation is skipped and
the returned values sum to that raw mass instead of `1`. -/
theorem C3_enumeration_sum {net : BayesianNetwork} {queryNodes : List String}
    {evidence : List (String × String)} {r : List (List (String × String) × ℚ)}
    (h : net.variableElimination queryNodes evidence = .ok r) :
    (r.map Prod.snd).sum = 1 ∨ (r.map Prod.snd).sum ≤ 1/10^10 :=
  variableElimination_sum h

theorem c3_eval : c3net.variableElimination ["A"] [] =
    .ok [([("A", "t")], 0)] := by
  norm_num +decide [c3net, BayesianNetwork.variableElimination,
    BayesianNetwork.generateAssignments, gatherStateLists, genAssignmentsRec,
    mapFind, mapInsert, insertAll, sumCombinations,
    BayesianNetwork.computeJointProbability, jointProbAux,
    buildParentAssignment, BayesianNetwork.getConditionalProbability,
    buildParentIndices, Node.getStateIndex, aSet, strLt, strLtAux]

/-- C3 counterexample: on the network holding the single node `A` (one
state `t`) and no CPT — the state reached by one `addNode` call — the
enumeration over query `["A"]` with no evidence returns the distribution
`{A=t ↦ 0}`: its probabilities sum to `0`, not `1`. -/
theorem C3_counterexample :
    (BayesianNetwork.empty.addNode "A" "A" ["t"]).2 = c3net ∧
    c3net.variableElimination ["A"] [] = .ok [([("A", "t")], 0)] ∧
    ¬(((([([("A", "t")], 0)]) : List (List (String × String) × ℚ)).map
        Prod.snd).sum = 1) :=
  ⟨by decide, c3_eval, by norm_num⟩

/-- Witness for the amended enumeration-sum property at the concrete
one-node network. -/
theorem C3_enumeration_sum_witness :
    (([([("A", "t")], (0 : ℚ))].map Prod.snd).sum = 1 ∨
     ([([("A", "t")], (0 : ℚ))].map Prod.snd).sum ≤ 1/10^10) :=
  @C3_enumeration_sum c3net ["A"] [] [([("A", "t")], 0)] c3_eval

/-- Witness for the enumeration error-skipping property at the concrete
one-node network (whose sole combination throws `MissingCPT` and is
counted as zero mass). -/
theorem C7_error_skips_combination_witness :
    (∃ r, c3net.variableElimination ["A"] [] = .ok r) ∧
    (∀ (full : List (String × String)) (sas : List (List (String × String))),
      sumCombinations c3net full sas 0 =
        (sas.map (fun sa => jointMass c3net (insertAll full sa))).sum) :=
  @C7_error_skips_combination c3net ["A"] [] [[("A", "t")]] (by decide)

/-! ## Normalisation (`normalize` / `isValid`) -/

theorem prod_pos_mem {l : List ℕ} (h : 0 < l.prod) : ∀ d ∈ l, 0 < d := by
  intro d hd
  rcases Nat.eq_zero_or_pos d with h0 | h1
  · subst h0
    rw [List.prod_eq_zero hd] at h
    exact absurd h (by omega)
  · exact h1

theorem decodeConfig_length : ∀ (dims : List ℕ) (pc : ℕ),
    (decodeConfig dims pc).length = dims.length
  | [], _ => rfl
  | d :: rest, pc => by simp [decodeConfig, decodeConfig_length rest]

theorem decodeConfig_lt : ∀ (dims : List ℕ) (pc : ℕ), (∀ d ∈ dims, 0 < d) →
    List.Forall₂ (· < ·) (decodeConfig dims pc) dims
  | [], _, _ => List.Forall₂.nil
  | d :: rest, pc, h => by
    refine List.Forall₂.cons (Nat.mod_lt pc (h d (by simp))) ?_
    exact decodeConfig_lt rest (pc / d) (fun x hx => h x (by simp [hx]))

theorem decodeConfig_inj : ∀ (dims : List ℕ) {pc pc' : ℕ}, pc < dims.prod →
    pc' < dims.prod → decodeConfig dims pc = decodeConfig dims pc' → pc = pc'
  | [], pc, pc', h, h', _ => by
    simp only [List.prod_nil] at h h'
    omega
  | d :: rest, pc, pc', h, h', heq => by
    simp only [decodeConfig, List.cons.injEq] at heq
    simp only [List.prod_cons] at h h'
    have hd : 0 < d := by
      rcases Nat.eq_zero_or_pos d with h0 | h1
      · subst h0; simp at h
      · exact h1
    have hq : pc / d < rest.prod := Nat.div_lt_of_lt_mul h
    have hq' : pc' / d < rest.prod := Nat.div_lt_of_lt_mul h'
    have hdiv := decodeConfig_inj rest hq hq' heq.2
    calc pc = d * (pc / d) + pc % d := (Nat.div_add_mod pc d).symm
    _ = d * (pc' / d) + pc' % d := by rw [hdiv, heq.1]
    _ = pc' := Nat.div_add_mod pc' d

theorem numNodeStates_eq {t : ConditionalProbabilityTable}
    (h : t.dimensions ≠ []) : t.numNodeStates = t.dimensions.getLast h := by
  unfold ConditionalProbabilityTable.numNodeStates
  rw [List.getLastD_eq_getLast?, List.getLast?_eq_getLast _ h]
  rfl

theorem slice_indices_bound {t : ConditionalProbabilityTable}
    (hne : t.dimensions ≠ []) {pc ns : ℕ}
    (hpc : pc < t.numParentConfigs) (hns : ns < t.numNodeStates) :
    List.Forall₂ (· < ·) (decodeConfig t.dimensions.dropLast pc ++ [ns])
      t.dimensions := by
  have hp : 0 < t.dimensions.dropLast.prod := by
    unfold ConditionalProbabilityTable.numParentConfigs at hpc
    omega
  conv_rhs => rw [← List.dropLast_append_getLast hne]
  refine List.rel_append (decodeConfig_lt _ pc (prod_pos_mem hp)) ?_
  exact List.Forall₂.cons (by rw [← numNodeStates_eq hne]; exact hns)
    List.Forall₂.nil

theorem sliceIdx_lt {t : ConditionalProbabilityTable} (hwf : t.WF)
    (hne : t.dimensions ≠ []) {pc ns : ℕ}
    (hpc : pc < t.numParentConfigs) (hns : ns < t.numNodeStates) :
    t.sliceIdx pc ns < t.dimensions.prod := by
  have hb := flatIndexVal_lt_prod (slice_indices_bound hne hpc hns)
  unfold ConditionalProbabilityTable.sliceIdx
  rw [hwf.1]
  exact hb

theorem sliceIdx_inj {t : ConditionalProbabilityTable} (hwf : t.WF)
    (hne : t.dimensions ≠ []) {pc ns pc' ns' : ℕ}
    (hpc : pc < t.numParentConfigs) (hns : ns < t.numNodeStates)
    (hpc' : pc' < t.numParentConfigs) (hns' : ns' < t.numNodeStates)
    (heq : t.sliceIdx pc ns = t.sliceIdx pc' ns') : pc = pc' ∧ ns = ns' := by
  unfold ConditionalProbabilityTable.sliceIdx at heq
  rw [hwf.1] at heq
  have hlists := flatIndexVal_inj (slice_indices_bound hne hpc hns)
    (slice_indices_bound hne hpc' hns') heq
  have hlen : (decodeConfig t.dimensions.dropLast pc).length =
      (decodeConfig t.dimensions.dropLast pc').length := by
    rw [decodeConfig_length, decodeConfig_length]
  obtain ⟨h1, h2⟩ := List.append_inj hlists hlen
  have hpceq : pc = pc' := by
    unfold ConditionalProbabilityTable.numParentConfigs at hpc hpc'
    exact decodeConfig_inj _ hpc hpc' h1
  exact ⟨hpceq, by simpa using h2⟩

theorem getD_set_ne {α : Type} (l : List α) (d : α) {i j : ℕ} (v : α)
    (h : i ≠ j) : (l.set i v).getD j d = l.getD j d := by
  simp [List.getD_eq_getElem?_getD, List.getElem?_set_ne h]

theorem getD_set_self {α : Type} (l : List α) (d : α) {i : ℕ} (v : α)
    (h : i < l.length) : (l.set i v).getD i d = v := by
  simp [List.getD_eq_getElem?_getD, List.getElem?_set_self, h]

theorem innerFold_spec {t : ConditionalProbabilityTable} (hwf : t.WF)
    (hne : t.dimensions ≠ []) {pc : ℕ} (hpc : pc < t.numParentConfigs)
    (s : ℚ) : ∀ (k : ℕ), k ≤ t.numNodeStates → ∀ (probs : List ℚ),
    probs.length = t.dimensions.prod →
    ((List.range k).foldl
        (fun p ns => p.set (t.sliceIdx pc ns) (p.getD (t.sliceIdx pc ns) 0 / s))
        probs).length = probs.length ∧
    (∀ ns, ns < k → ((List.range k).foldl
        (fun p ns => p.set (t.sliceIdx pc ns) (p.getD (t.sliceIdx pc ns) 0 / s))
        probs).getD (t.sliceIdx pc ns) 0
        = probs.getD (t.sliceIdx pc ns) 0 / s) ∧
    (∀ j, (∀ ns, ns < k → j ≠ t.sliceIdx pc ns) → ((List.range k).foldl
        (fun p ns => p.set (t.sliceIdx pc ns) (p.getD (t.sliceIdx pc ns) 0 / s))
        probs).getD j 0 = probs.getD j 0) := by
  intro k
  induction k with
  | zero => exact fun _ probs _ => ⟨rfl, fun ns hns => absurd hns (by omega),
      fun j _ => rfl⟩
  | succ k ih =>
    intro hk probs hlen
    have ihk := ih (by omega) probs hlen
    have hkn : k < t.numNodeStates := by omega
    rw [List.range_succ, List.foldl_append, List.foldl_cons, List.foldl_nil]
    have hidxlt : t.sliceIdx pc k < ((List.range k).foldl
        (fun p ns => p.set (t.sliceIdx pc ns) (p.getD (t.sliceIdx pc ns) 0 / s))
        probs).length := by
      rw [ihk.1, hlen]
      exact sliceIdx_lt hwf hne hpc hkn
    refine ⟨?_, ?_, ?_⟩
    · rw [List.length_set, ihk.1]
    · intro ns hns
      by_cases hnsk : ns = k
      · subst hnsk
        rw [getD_set_self _ _ _ hidxlt]
        rw [ihk.2.2 (t.sliceIdx pc ns) ?_]
        intro ns' hns' hc
        have hinj := sliceIdx_inj hwf hne hpc hkn hpc
          (lt_trans hns' hkn) hc
        omega
      · have hne2 : t.sliceIdx pc k ≠ t.sliceIdx pc ns := by
          intro hc
          have hinj := sliceIdx_inj hwf hne hpc hkn hpc
            (by omega : ns < t.numNodeStates) hc
          omega
        rw [getD_set_ne _ _ _ hne2]
        exact ihk.2.1 ns (by omega)
    · intro j hj
      have hne2 : t.sliceIdx pc k ≠ j := fun hc => hj k (by omega) hc.symm
      rw [getD_set_ne _ _ _ hne2]
      exact ihk.2.2 j (fun ns hns => hj ns (by omega))

theorem normalizeSlice_spec {t : ConditionalProbabilityTable} (hwf : t.WF)
    (hne : t.dimensions ≠ []) {pc : ℕ} (hpc : pc < t.numParentConfigs)
    (probs : List ℚ) (hlen : probs.length = t.dimensions.prod) :
    (normalizeSlice t probs pc).length = probs.length ∧
    (∀ j, (∀ ns, ns < t.numNodeStates → j ≠ t.sliceIdx pc ns) →
      (normalizeSlice t probs pc).getD j 0 = probs.getD j 0) ∧
    (t.sliceSum probs pc > 1/10^10 →
      ∀ ns, ns < t.numNodeStates →
        (normalizeSlice t probs pc).getD (t.sliceIdx pc ns) 0 =
          probs.getD (t.sliceIdx pc ns) 0 / t.sliceSum probs pc) ∧
    (¬(t.sliceSum probs pc > 1/10^10) → normalizeSlice t probs pc = probs) := by
  have hspec := innerFold_spec hwf hne hpc (t.sliceSum probs pc)
    t.numNodeStates le_rfl probs hlen
  have hpos_eq : t.sliceSum probs pc > 1/10^10 → normalizeSlice t probs pc =
      (List.range t.numNodeStates).foldl
        (fun p ns => p.set (t.sliceIdx pc ns)
          (p.getD (t.sliceIdx pc ns) 0 / t.sliceSum probs pc)) probs := by
    intro hs
    unfold normalizeSlice
    simp only [if_pos hs]
  have hneg_eq : ¬(t.sliceSum probs pc > 1/10^10) →
      normalizeSlice t probs pc = probs := by
    intro hs
    unfold normalizeSlice
    simp only [if_neg hs]
  by_cases hs : t.sliceSum probs pc > 1/10^10
  · rw [hpos_eq hs]
    exact ⟨hspec.1, fun j hj => hspec.2.2 j hj,
      fun _ ns hns => hspec.2.1 ns hns, fun hc => absurd hs hc⟩
  · rw [hneg_eq hs]
    exact ⟨rfl, fun _ _ => rfl, fun hc => absurd hc hs, fun _ => rfl⟩

theorem sliceSum_congr {t : ConditionalProbabilityTable} {p q : List ℚ}
    {pc : ℕ}
    (h : ∀ ns, ns < t.numNodeStates →
      p.getD (t.sliceIdx pc ns) 0 = q.getD (t.sliceIdx pc ns) 0) :
    t.sliceSum p pc = t.sliceSum q pc := by
  unfold ConditionalProbabilityTable.sliceSum
  congr 1
  exact List.map_congr_left (fun ns hns => h ns (List.mem_range.mp hns))

theorem normalizeFold_spec {t : ConditionalProbabilityTable} (hwf : t.WF)
    (hne : t.dimensions ≠ []) :
    ∀ (k : ℕ), k ≤ t.numParentConfigs →
    ((List.range k).foldl (normalizeSlice t) t.probabilities).length =
      t.dimensions.prod ∧
    (∀ pc, k ≤ pc → pc < t.numParentConfigs → ∀ ns, ns < t.numNodeStates →
      ((List.range k).foldl (normalizeSlice t) t.probabilities).getD
        (t.sliceIdx pc ns) 0 = t.probabilities.getD (t.sliceIdx pc ns) 0) ∧
    (∀ pc, pc < k → ∀ ns, ns < t.numNodeStates →
      ((List.range k).foldl (normalizeSlice t) t.probabilities).getD
        (t.sliceIdx pc ns) 0 =
      (if t.sliceSum t.probabilities pc > 1/10^10 then
        t.probabilities.getD (t.sliceIdx pc ns) 0 /
          t.sliceSum t.probabilities pc
      else t.probabilities.getD (t.sliceIdx pc ns) 0)) := by
  intro k
  induction k with
  | zero => exact fun _ => ⟨hwf.2.1, fun _ _ _ _ _ => rfl,
      fun pc hpc => absurd hpc (by omega)⟩
  | succ k ih =>
    intro hk
    have ihk := ih (by omega)
    have hkn : k < t.numParentConfigs := by omega
    rw [List.range_succ, List.foldl_append, List.foldl_cons, List.foldl_nil]
    have hspec := normalizeSlice_spec hwf hne hkn _ ihk.1
    have hsk : t.sliceSum ((List.range k).foldl (normalizeSlice t)
        t.probabilities) k = t.sliceSum t.probabilities k :=
      sliceSum_congr (fun ns hns => ihk.2.1 k le_rfl hkn ns hns)
    refine ⟨hspec.1.trans ihk.1, ?_, ?_⟩
    · intro pc hpck hpc ns hns
      rw [hspec.2.1 (t.sliceIdx pc ns) ?_]
      · exact ihk.2.1 pc (by omega) hpc ns hns
      · intro ns' hns' hc
        have hinj := sliceIdx_inj hwf hne hpc hns hkn hns' hc
        omega
    · intro pc hpck ns hns
      by_cases hpcek : pc = k
      · subst hpcek
        by_cases hs : t.sliceSum t.probabilities pc > 1/10^10
        · rw [if_pos hs]
          have h3 := hspec.2.2.1 (by rw [hsk]; exact hs) ns hns
          rw [h3, hsk, ihk.2.1 pc le_rfl hkn ns hns]
        · rw [if_neg hs]
          have h4 := hspec.2.2.2 (by rw [hsk]; exact hs)
          rw [h4]
          exact ihk.2.1 pc le_rfl hkn ns hns
      · have hpck2 : pc < k := by omega
        rw [hspec.2.1 (t.sliceIdx pc ns) ?_]
        · exact ihk.2.2 pc hpck2 ns hns
        · intro ns' hns' hc
          have hinj := sliceIdx_inj hwf hne (by omega : pc < t.numParentConfigs)
            hns hkn hns' hc
          omega

/-- C6 (amended): after `normalize`, `isValid` at the default tolerance
`1e-6` holds for every well-formed tensor all of whose parent-configuration
slices have raw sum above `1e-10` (the C++ normalisation threshold): each
such slice is rescaled to sum exactly `1`. A slice that is not all-zero
but sums to at most `1e-10` is left untouched by `normalize` and fails
validation. -/
theorem C6_normalize_isValid {t : ConditionalProbabilityTable} (hwf : t.WF)
    (hpos : ∀ pc, pc < t.numParentConfigs →
      t.sliceSum t.probabilities pc > 1/10^10) :
    t.normalize.isValid (1/10^6) = true := by
  by_cases hne : t.dimensions = []
  · have h0 := hpos 0
      (by simp [ConditionalProbabilityTable.numParentConfigs, hne])
    have hz : t.numNodeStates = 0 := by
      simp [ConditionalProbabilityTable.numNodeStates, hne]
    unfold ConditionalProbabilityTable.sliceSum at h0
    rw [hz] at h0
    norm_num at h0
  · unfold ConditionalProbabilityTable.isValid
    rw [List.all_eq_true]
    intro pc hpcmem
    rw [decide_eq_true_eq]
    have hpc : pc < t.numParentConfigs := List.mem_range.mp hpcmem
    have hfold := normalizeFold_spec hwf hne t.numParentConfigs le_rfl
    have hs := hpos pc hpc
    have hspos : (0 : ℚ) < t.sliceSum t.probabilities pc :=
      lt_trans (by norm_num) hs
    have hentry : ∀ ns, ns < t.numNodeStates →
        (t.normalize.probabilities).getD (t.sliceIdx pc ns) 0 =
        t.probabilities.getD (t.sliceIdx pc ns) 0 /
          t.sliceSum t.probabilities pc := by
      intro ns hns
      have h3 := hfold.2.2 pc hpc ns hns
      rw [if_pos hs] at h3
      exact h3
    have hsum : t.normalize.sliceSum t.normalize.probabilities pc =
        t.sliceSum t.probabilities pc / t.sliceSum t.probabilities pc := by
      show t.sliceSum t.normalize.probabilities pc = _
      unfold ConditionalProbabilityTable.sliceSum
      rw [List.map_congr_left
        (fun ns hns => hentry ns (List.mem_range.mp hns))]
      have hcomp : (fun ns => t.probabilities.getD (t.sliceIdx pc ns) 0 /
          t.sliceSum t.probabilities pc) =
          ((· / t.sliceSum t.probabilities pc) ∘
            (fun ns => t.probabilities.getD (t.sliceIdx pc ns) 0)) := rfl
      rw [hcomp, ← List.map_map, list_sum_div]
      rfl
    rw [hsum, div_self (ne_of_gt hspos)]
    norm_num

theorem list_range_one : List.range 1 = [0] := by decide

/-- C6 counterexample: the single-entry tensor holding `1e-11` has no
all-zero slice (its one slice contains the nonzero entry `1e-11`), yet
`normalize` leaves it untouched (slice sum `1e-11 ≤ 1e-10`) and
`isValid(1e-6)` then reports `false`. -/
theorem C6_counterexample :
    ((ConditionalProbabilityTable.ofDims [1]).setProbability [] 0 (1/10^11)).1
      = .ok () ∧
    c6t.numParentConfigs = 1 ∧ c6t.numNodeStates = 1 ∧
    c6t.probabilities.getD (c6t.sliceIdx 0 0) 0 ≠ 0 ∧
    c6t.normalize.isValid (1/10^6) = false := by
  refine ⟨?_, ?_, ?_, ?_, ?_⟩
  · norm_num +decide [ConditionalProbabilityTable.ofDims,
      ConditionalProbabilityTable.setProbability,
      ConditionalProbabilityTable.getFlatIndex, flatIndexVal,
      calculateStrides]
  · norm_num +decide [c6t, ConditionalProbabilityTable.ofDims,
      ConditionalProbabilityTable.setProbability,
      ConditionalProbabilityTable.getFlatIndex, flatIndexVal,
      calculateStrides, ConditionalProbabilityTable.numParentConfigs]
  · norm_num +decide [c6t, ConditionalProbabilityTable.ofDims,
      ConditionalProbabilityTable.setProbability,
      ConditionalProbabilityTable.getFlatIndex, flatIndexVal,
      calculateStrides, ConditionalProbabilityTable.numNodeStates]
  · norm_num +decide [c6t, ConditionalProbabilityTable.ofDims,
      ConditionalProbabilityTable.setProbability,
      ConditionalProbabilityTable.getFlatIndex, flatIndexVal,
      calculateStrides, ConditionalProbabilityTable.sliceIdx, decodeConfig]
  · norm_num +decide [c6t, ConditionalProbabilityTable.ofDims,
      ConditionalProbabilityTable.setProbability,
      ConditionalProbabilityTable.getFlatIndex, flatIndexVal,
      calculateStrides, ConditionalProbabilityTable.normalize,
      list_range_one, List.range_zero, List.range_succ,
      normalizeSlice, ConditionalProbabilityTable.sliceSum,
      ConditionalProbabilityTable.sliceIdx, decodeConfig,
      ConditionalProbabilityTable.numParentConfigs,
      ConditionalProbabilityTable.numNodeStates,
      ConditionalProbabilityTable.isValid]
    rw [abs_of_pos (by norm_num)]
    norm_num

/-- Witness for the amended normalisation property at a concrete tensor
whose single slice sums above the threshold. -/
theorem C6_normalize_isValid_witness : c6w.normalize.isValid (1/10^6) = true :=
  @C6_normalize_isValid c6w ⟨rfl, rfl, rfl⟩ (by
    intro pc hpc
    have h1 : c6w.numParentConfigs = 1 := rfl
    have h0 : pc = 0 := by omega
    subst h0
    norm_num [c6w, ConditionalProbabilityTable.sliceSum,
      list_range_one, ConditionalProbabilityTable.numNodeStates,
      ConditionalProbabilityTable.sliceIdx, decodeConfig, flatIndexVal,
      calculateStrides])

/-- C5: in the upward pass, an unobserved *other* parent (`B`) of the
sending node is resolved to the first state of the *message-target*
parent (`A`) — the C++ reads `parentNode.states[0]` where `parentNode`
is `nodes.at(parentId)` — and not to `B`'s own first declared state
`b0`. On parents with disjoint vocabularies the conditional-probability
lookup is then handed a state foreign to `B` and the whole of belief
propagation throws instead of returning beliefs. -/
theorem C5_upward_other_parent_bug :
    ((((((BayesianNetwork.empty.addNode "A" "A" ["a0"]).2.addNode "B" "B"
        ["b0"]).2.addNode "C" "C" ["c0"]).2.addEdge "A" "C").2.addEdge "B"
        "C").2.setCPT "C" (ConditionalProbabilityTable.ofDims [1, 1, 1])).2
      = c5net ∧
    mapFind (buildUpwardParentStates
        { name := "C", states := ["c0"], parentIds := ["A", "B"] } "A" "a0"
        { name := "A", states := ["a0"], parentIds := [] } []) "B"
      = some "a0" ∧
    ({ name := "B", states := ["b0"], parentIds := [] } : Node).states.getD 0 ""
      = "b0" ∧
    c5net.beliefPropagation ["C"] [] false = .error .invalidState :=
  ⟨by decide, by decide, by decide, by decide⟩

/-! ## Belief rows after propagation -/

theorem normalizeRow_sum (row : List (String × ℚ)) :
    ((normalizeRow row).map Prod.snd).sum = 1 ∨
    ((normalizeRow row).map Prod.snd).sum ≤ 1/10^10 := by
  unfold normalizeRow
  by_cases hs : (row.map Prod.snd).sum > 1/10^10
  · rw [if_pos hs]
    left
    have hmap : (List.map Prod.snd
        (List.map (fun p => (p.1, p.2 / (row.map Prod.snd).sum)) row)) =
        List.map (· / (row.map Prod.snd).sum) (row.map Prod.snd) := by
      rw [List.map_map, List.map_map]
      rfl
    rw [hmap, list_sum_div]
    exact div_self (ne_of_gt (lt_trans (by norm_num) hs))
  · rw [if_neg hs]
    exact Or.inr (le_of_not_lt hs)

theorem beliefSet_find_ne {bs : List (String × List (String × ℚ))}
    {nodeId k st : String} {v : ℚ} (h : nodeId ≠ k) :
    mapFind (beliefSet bs nodeId st v) k = mapFind bs k :=
  mapFind_mapInsert_ne h

theorem beliefMul_find_ne {bs : List (String × List (String × ℚ))}
    {nodeId k st : String} {v : ℚ} (h : nodeId ≠ k) :
    mapFind (beliefMul bs nodeId st v) k = mapFind bs k :=
  mapFind_mapInsert_ne h

theorem foldl_beliefSet_find_ne {nodeId k : String} (h : nodeId ≠ k)
    (f : String → ℚ) :
    ∀ (sts : List String) (bs : List (String × List (String × ℚ))),
    mapFind (sts.foldl (fun bs' st => beliefSet bs' nodeId st (f st)) bs) k =
      mapFind bs k
  | [], _ => rfl
  | st :: rest, bs => by
    rw [List.foldl_cons, foldl_beliefSet_find_ne h f rest]
    exact beliefSet_find_ne h

theorem initNodeBeliefs_find_ne {bs : List (String × List (String × ℚ))}
    {nodeId k : String} {node : Node} {ev : List (String × String)}
    (h : nodeId ≠ k) :
    mapFind (initNodeBeliefs bs nodeId node ev) k = mapFind bs k := by
  unfold initNodeBeliefs
  split
  · exact foldl_beliefSet_find_ne h _ node.states bs
  · exact foldl_beliefSet_find_ne h _ node.states bs

theorem priorBeliefs_frame {nodeId : String} {node : Node}
    {cpt : ConditionalProbabilityTable} :
    ∀ {is : List ℕ} {bs bs' : List (String × List (String × ℚ))},
    priorBeliefs nodeId node cpt is bs = .ok bs' →
    ∀ k, nodeId ≠ k → mapFind bs' k = mapFind bs k := by
  intro is
  induction is with
  | nil =>
    intro bs bs' h k hk
    obtain rfl := Except.ok.inj h
    rfl
  | cons i rest ih =>
    intro bs bs' h k hk
    unfold priorBeliefs at h
    split at h
    · exact absurd h (by simp)
    · rw [ih h k hk]
      exact beliefSet_find_ne hk

theorem multiplyMessage_find_ne {bs : List (String × List (String × ℚ))}
    {nodeId k : String} {msg : List (String × ℚ)} (h : nodeId ≠ k) :
    ∀ {sts : List String},
    mapFind (multiplyMessage bs nodeId sts msg) k = mapFind bs k := by
  have hgen : ∀ (sts : List String) (bs0 : List (String × List (String × ℚ))),
      mapFind (sts.foldl (fun bs' st =>
        match mapFind msg st with
        | some v => beliefMul bs' nodeId st v
        | none => bs') bs0) k = mapFind bs0 k := by
    intro sts
    induction sts with
    | nil => intro bs0; rfl
    | cons st rest ih =>
      intro bs0
      rw [List.foldl_cons, ih]
      split
      · exact beliefMul_find_ne h
      · rfl
  intro sts
  exact hgen sts bs

theorem multiplyParentMsgs_frame
    {msgs : List ((String × String) × List (String × ℚ))}
    {nodeId k : String} {sts : List String} (h : nodeId ≠ k) :
    ∀ {pids : List String} {bs : List (String × List (String × ℚ))},
    mapFind (multiplyParentMsgs msgs nodeId sts pids bs) k = mapFind bs k
  | [], _ => rfl
  | pid :: rest, bs => by
    unfold multiplyParentMsgs
    split
    · rw [multiplyParentMsgs_frame h]
      exact multiplyMessage_find_ne h
    · exact multiplyParentMsgs_frame h

theorem multiplyChildMsgs_frame
    {msgs : List ((String × String) × List (String × ℚ))}
    {nodeId k : String} {sts : List String} (h : nodeId ≠ k) :
    ∀ {ns : List (String × Node)} {bs : List (String × List (String × ℚ))},
    mapFind (multiplyChildMsgs msgs nodeId sts ns bs) k = mapFind bs k
  | [], _ => rfl
  | p :: rest, bs => by
    unfold multiplyChildMsgs
    split
    · split
      · rw [multiplyChildMsgs_frame h]
        exact multiplyMessage_find_ne h
      · exact multiplyChildMsgs_frame h
    · exact multiplyChildMsgs_frame h

theorem computeNodeBelief_frame {net : BayesianNetwork}
    {msgs : List ((String × String) × List (String × ℚ))}
    {nodeId : String} {node : Node}
    {bs bs' : List (String × List (String × ℚ))}
    (h : computeNodeBelief net msgs nodeId node bs = .ok bs') :
    ∀ k, nodeId ≠ k → mapFind bs' k = mapFind bs k := by
  intro k hk
  unfold computeNodeBelief at h
  simp only [] at h
  split at h
  · exact absurd h (by simp)
  · next bs1 heq =>
    obtain rfl := Except.ok.inj h
    unfold normalizeBeliefRow
    rw [mapFind_mapInsert_ne hk, multiplyChildMsgs_frame hk,
      multiplyParentMsgs_frame hk]
    split at heq
    · next cpt hcpt =>
      split at heq
      · exact priorBeliefs_frame heq k hk
      · obtain rfl := Except.ok.inj heq
        rfl
    · obtain rfl := Except.ok.inj heq
      rfl

theorem computeNodeBelief_row {net : BayesianNetwork}
    {msgs : List ((String × String) × List (String × ℚ))}
    {nodeId : String} {node : Node}
    {bs bs' : List (String × List (String × ℚ))}
    (h : computeNodeBelief net msgs nodeId node bs = .ok bs') :
    ∃ r, mapFind bs' nodeId = some (normalizeRow r) := by
  unfold computeNodeBelief at h
  simp only [] at h
  split at h
  · exact absurd h (by simp)
  · obtain rfl := Except.ok.inj h
    exact ⟨_, mapFind_mapInsert_self⟩

theorem computeBeliefsLoop_frame {net : BayesianNetwork}
    {msgs : List ((String × String) × List (String × ℚ))}
    {ev : List (String × String)} :
    ∀ {nodes : List (String × Node)}
      {bs bsf : List (String × List (String × ℚ))},
    computeBeliefsLoop net msgs ev nodes bs = .ok bsf →
    ∀ k, (∀ p ∈ nodes, p.1 ≠ k) → mapFind bsf k = mapFind bs k
  | [], bs, bsf, h, k, _ => by
    obtain rfl := Except.ok.inj h
    rfl
  | p :: rest, bs, bsf, h, k, hk => by
    unfold computeBeliefsLoop at h
    split at h
    · exact computeBeliefsLoop_frame h k (fun q hq => hk q (by simp [hq]))
    · split at h
      · exact absurd h (by simp)
      · next bs1 heq =>
        rw [computeBeliefsLoop_frame h k (fun q hq => hk q (by simp [hq]))]
        exact computeNodeBelief_frame heq k (hk p (by simp))

theorem computeBeliefsLoop_row {net : BayesianNetwork}
    {msgs : List ((String × String) × List (String × ℚ))}
    {ev : List (String × String)} :
    ∀ {nodes : List (String × Node)}
      {bs bsf : List (String × List (String × ℚ))},
    (nodes.map Prod.fst).Nodup →
    computeBeliefsLoop net msgs ev nodes bs = .ok bsf →
    ∀ p ∈ nodes, (mapFind ev p.1).isNone = true →
    ∃ r, mapFind bsf p.1 = some (normalizeRow r)
  | [], _, _, _, _, p, hp, _ => absurd hp (by simp)
  | q :: rest, bs, bsf, hnodup, h, p, hp, hune => by
    simp only [List.map_cons, List.nodup_cons] at hnodup
    unfold computeBeliefsLoop at h
    rcases List.mem_cons.mp hp with rfl | hprest
    · split at h
      · next hobs =>
        rw [Option.isNone_iff_eq_none] at hune
        rw [hune] at hobs
        exact absurd hobs (by simp)
      · split at h
        · exact absurd h (by simp)
        · next bs1 heq =>
          obtain ⟨r, hr⟩ := computeNodeBelief_row heq
          refine ⟨r, ?_⟩
          rw [computeBeliefsLoop_frame h p.1 ?_, hr]
          intro q' hq' hc
          exact hnodup.1 (hc ▸ List.mem_map_of_mem Prod.fst hq')
    · split at h
      · exact computeBeliefsLoop_row hnodup.2 h p hprest hune
      · split at h
        · exact absurd h (by simp)
        · exact computeBeliefsLoop_row hnodup.2 h p hprest hune

theorem reverseBeliefsLoop_frame {net : BayesianNetwork}
    {ev : List (String × String)} :
    ∀ {qs : List String} {bs bsf : List (String × List (String × ℚ))},
    reverseBeliefsLoop net ev qs bs = .ok bsf →
    ∀ k, k ∉ qs → mapFind bsf k = mapFind bs k
  | [], bs, bsf, h, k, _ => by
    obtain rfl := Except.ok.inj h
    rfl
  | v :: rest, bs, bsf, h, k, hk => by
    unfold reverseBeliefsLoop at h
    split at h
    · exact absurd h (by simp)
    · rw [reverseBeliefsLoop_frame h k (fun hc => hk (by simp [hc]))]
      exact mapFind_mapInsert_ne (fun hc => hk (by simp [hc]))

theorem reverseBeliefsLoop_row {net : BayesianNetwork}
    {ev : List (String × String)} :
    ∀ {qs : List String} {bs bsf : List (String × List (String × ℚ))},
    reverseBeliefsLoop net ev qs bs = .ok bsf →
    ∀ v ∈ qs, ∃ row, mapFind bsf v = some row ∧
      ((row.map Prod.snd).sum = 1 ∨ (row.map Prod.snd).sum ≤ 1/10^10)
  | [], _, _, _, v, hv => absurd hv (by simp)
  | v0 :: rest, bs, bsf, h, v, hv => by
    unfold reverseBeliefsLoop at h
    split at h
    · exact absurd h (by simp)
    · next r hVE =>
      by_cases hvrest : v ∈ rest
      · exact reverseBeliefsLoop_row h v hvrest
      · have hv0 : v = v0 := by
          rcases List.mem_cons.mp hv with h1 | h1
          · exact h1
          · exact absurd h1 hvrest
        subst hv0
        refine ⟨r.map (fun p => ((mapFind p.1 v).getD "", p.2)), ?_, ?_⟩
        · rw [reverseBeliefsLoop_frame h v hvrest]
          exact mapFind_mapInsert_self
        · have hmap : ((r.map (fun p => ((mapFind p.1 v).getD "", p.2))).map
              Prod.snd) = r.map Prod.snd := by
            rw [List.map_map]
            rfl
          rw [hmap]
          exact variableElimination_sum hVE

/-- C4 (amended): when forward belief propagation succeeds, every
unobserved node's returned belief row sums to exactly `1` or — in the
degenerate all-mass-below-`1e-10` case where normalisation is skipped —
to at most `1e-10` (not within `1e-4` of `1`); likewise each queried
variable's row of reverse belief propagation. spec-modelled: the reverse
direction follows the spec's jointProbability-based re-derivation, its
body being absent from the provided core. -/
theorem C4_beliefs_sum {net : BayesianNetwork} (hwf : net.WF)
    {queryNodes : List String} {evidence : List (String × String)}
    {ti ti' : Bool} {bs bs' : List (String × List (String × ℚ))}
    {tr tr' : List InfluenceTrace}
    (hfwd : net.beliefPropagation queryNodes evidence ti = .ok (bs, tr))
    (hrev : net.reverseBeliefPropagation queryNodes evidence ti' =
      .ok (bs', tr')) :
    (∀ p ∈ net.nodes, (mapFind evidence p.1).isNone = true →
      ∃ row, mapFind bs p.1 = some row ∧
        ((row.map Prod.snd).sum = 1 ∨ (row.map Prod.snd).sum ≤ 1/10^10)) ∧
    (∀ v ∈ queryNodes, ∃ row, mapFind bs' v = some row ∧
      ((row.map Prod.snd).sum = 1 ∨ (row.map Prod.snd).sum ≤ 1/10^10)) := by
  constructor
  · unfold BayesianNetwork.beliefPropagation at hfwd
    simp only [] at hfwd
    split at hfwd
    · exact absurd hfwd (by simp)
    · split at hfwd
      · exact absurd hfwd (by simp)
      · split at hfwd
        · exact absurd hfwd (by simp)
        · split at hfwd
          · exact absurd hfwd (by simp)
          · next beliefs hloop =>
            have hpair := Except.ok.inj hfwd
            have hbs : beliefs = bs := congrArg Prod.fst hpair
            subst hbs
            intro p hp hune
            obtain ⟨r, hr⟩ := computeBeliefsLoop_row hwf.1.keysNodup hloop
              p hp hune
            exact ⟨normalizeRow r, hr, normalizeRow_sum r⟩
  · unfold BayesianNetwork.reverseBeliefPropagation at hrev
    split at hrev
    · exact absurd hrev (by simp)
    · next beliefs hloop =>
      have hpair := Except.ok.inj hrev
      have hbs : beliefs = bs' := congrArg Prod.fst hpair
      subst hbs
      exact reverseBeliefsLoop_row hloop

/-- C4 counterexample: on the all-zero-CPT one-node network both forward
and reverse belief propagation succeed and return the belief row
`{t ↦ 0}` for `A`: the row sums to `0`, not within `1e-4` of `1`. -/
theorem C4_counterexample :
    ((BayesianNetwork.empty.addNode "A" "A" ["t"]).2.setCPT "A"
      (ConditionalProbabilityTable.ofDims [1])).2 = c4net ∧
    c4net.beliefPropagation ["A"] [] false =
      .ok ([("A", [("t", 0)])], []) ∧
    c4net.reverseBeliefPropagation ["A"] [] false =
      .ok ([("A", [("t", 0)])], []) ∧
    ¬(|(([("t", (0 : ℚ))].map Prod.snd).sum) - 1| ≤ 1/10^4) := by
  refine ⟨by decide, ?_, ?_, by norm_num⟩
  · norm_num +decide [c4net, BayesianNetwork.beliefPropagation, initBeliefs,
      initNodeBeliefs, beliefSet, beliefMul, mapFind, mapInsert,
      initializeMessages, rootMessages, sendToChildren,
      ConditionalProbabilityTable.ofDims, calculateStrides,
      ConditionalProbabilityTable.getProbability,
      ConditionalProbabilityTable.getFlatIndex, flatIndexVal,
      upwardPass, collectChildMessages, upwardToParents, upwardMessage,
      upwardMessageValue, buildUpwardParentStates, childMessageProduct,
      normalizeRow, downwardPass, collectParentMessages, downwardToChildren,
      downwardMessage, downwardMessageValue, buildDownwardParentStates,
      parentMessageProduct, argmaxState, computeBeliefsLoop,
      computeNodeBelief, priorBeliefs, multiplyParentMsgs, multiplyChildMsgs,
      multiplyMessage, normalizeBeliefRow, Node.hasParent, Node.getStateIndex,
      BayesianNetwork.getConditionalProbability, buildParentIndices,
      aSet, aFind, strLt, strLtAux, list_range_one]
  · norm_num +decide [c4net, BayesianNetwork.reverseBeliefPropagation,
      reverseBeliefsLoop, BayesianNetwork.variableElimination,
      BayesianNetwork.generateAssignments, gatherStateLists, genAssignmentsRec,
      mapFind, mapInsert, insertAll, sumCombinations,
      BayesianNetwork.computeJointProbability, jointProbAux,
      buildParentAssignment, BayesianNetwork.getConditionalProbability,
      buildParentIndices, Node.getStateIndex, aSet,
      ConditionalProbabilityTable.ofDims, calculateStrides,
      ConditionalProbabilityTable.getProbability,
      ConditionalProbabilityTable.getFlatIndex, flatIndexVal,
      strLt, strLtAux]

/-- Witness for the amended belief-sum property at the concrete one-node
unit-CPT network, on which both directions succeed. -/
theorem C4_beliefs_sum_witness :
    (∀ p ∈ c4w.nodes,
      (mapFind ([] : List (String × String)) p.1).isNone = true →
      ∃ row, mapFind [("A", [("t", (1 : ℚ))])] p.1 = some row ∧
        ((row.map Prod.snd).sum = 1 ∨ (row.map Prod.snd).sum ≤ 1/10^10)) ∧
    (∀ v ∈ ["A"], ∃ row,
      mapFind [("A", [("t", (1 : ℚ))])] v = some row ∧
      ((row.map Prod.snd).sum = 1 ∨ (row.map Prod.snd).sum ≤ 1/10^10)) :=
  @C4_beliefs_sum c4w
    (by unfold BayesianNetwork.WF MapWF SSorted; refine ⟨?_, ?_, ?_, ?_⟩ <;>
      decide) ["A"] [] false false
    [("A", [("t", 1)])] [("A", [("t", 1)])] [] []
    (by norm_num +decide [c4w, BayesianNetwork.beliefPropagation, initBeliefs,
      initNodeBeliefs, beliefSet, beliefMul, mapFind, mapInsert,
      initializeMessages, rootMessages, sendToChildren,
      ConditionalProbabilityTable.getProbability,
      ConditionalProbabilityTable.getFlatIndex, flatIndexVal,
      upwardPass, collectChildMessages, upwardToParents, upwardMessage,
      upwardMessageValue, buildUpwardParentStates, childMessageProduct,
      normalizeRow, downwardPass, collectParentMessages, downwardToChildren,
      downwardMessage, downwardMessageValue, buildDownwardParentStates,
      parentMessageProduct, argmaxState, computeBeliefsLoop,
      computeNodeBelief, priorBeliefs, multiplyParentMsgs, multiplyChildMsgs,
      multiplyMessage, normalizeBeliefRow, Node.hasParent, Node.getStateIndex,
      BayesianNetwork.getConditionalProbability, buildParentIndices,
      aSet, aFind, strLt, strLtAux, list_range_one])
    (by norm_num +decide [c4w, BayesianNetwork.reverseBeliefPropagation,
      reverseBeliefsLoop, BayesianNetwork.variableElimination,
      BayesianNetwork.generateAssignments, gatherStateLists, genAssignmentsRec,
      mapFind, mapInsert, insertAll, sumCombinations,
      BayesianNetwork.computeJointProbability, jointProbAux,
      buildParentAssignment, BayesianNetwork.getConditionalProbability,
      buildParentIndices, Node.getStateIndex, aSet,
      ConditionalProbabilityTable.getProbability,
      ConditionalProbabilityTable.getFlatIndex, flatIndexVal,
      strLt, strLtAux])

/-- Witness for the cycle-rollback property: adding `B → A` on top of
`A → B` fails with `CycleError` and leaves the network unchanged. -/
theorem C2_addEdge_cycle_rollback_witness :
    c2net = c2net ∧ topoSortNodes c2net.nodes = .ok ["A", "B"] :=
  @C2_addEdge_cycle_rollback c2net
    (by unfold BayesianNetwork.WF MapWF SSorted
        refine ⟨?_, ?_, ?_, ?_⟩ <;> decide)
    ["A", "B"] (by decide) "B" "A" c2net (by decide)

/-- Witness for the topological-order property at concrete mutations on
the two-node network. -/
theorem C8_topologicalOrder_valid_witness :
    (∀ net', c2net.addNode "C" "C" ["t"] = (.ok (), net') →
      net'.nodeOrder.Nodup ∧
      (∀ x, x ∈ net'.nodeOrder ↔ x ∈ net'.nodes.map Prod.fst) ∧
      (∀ i (hi : i < net'.nodeOrder.length),
        ∀ a ∈ parentsOf net'.nodes (net'.nodeOrder.get ⟨i, hi⟩),
          a ∈ net'.nodeOrder.take i)) ∧
    (∀ net', c2net.addEdge "A" "B" = (.ok (), net') →
      net'.nodeOrder.Nodup ∧
      (∀ x, x ∈ net'.nodeOrder ↔ x ∈ net'.nodes.map Prod.fst) ∧
      (∀ i (hi : i < net'.nodeOrder.length),
        ∀ a ∈ parentsOf net'.nodes (net'.nodeOrder.get ⟨i, hi⟩),
          a ∈ net'.nodeOrder.take i)) :=
  @C8_topologicalOrder_valid c2net
    (by unfold BayesianNetwork.WF MapWF SSorted
        refine ⟨?_, ?_, ?_, ?_⟩ <;> decide)
    "C" "C" ["t"] "A" "B"

/-- Witness for edge-order independence: the two insertion orders of the
edges `A → C`, `B → C` produce identical networks with sorted parent
sets. -/
theorem C1_sorted_parent_order_witness :
    c1m = c1m ∧
    (∀ nodeId node, mapFind c1m.nodes nodeId = some node →
      SSorted node.parentIds) ∧
    (∀ nodeId nodeState parentStates,
      c1m.getConditionalProbability nodeId nodeState parentStates =
        c1m.getConditionalProbability nodeId nodeState parentStates) :=
  @C1_sorted_parent_order c1base
    (by unfold BayesianNetwork.WF MapWF SSorted
        refine ⟨?_, ?_, ?_, ?_⟩ <;> decide)
    [("A", "C"), ("B", "C")] [("B", "C"), ("A", "C")] (by decide)
    c1m c1m (by decide) (by decide)

/-- Witness for the set/get round trip on a fresh two-entry tensor. -/
theorem C9_set_get_roundtrip_witness :
    ((ConditionalProbabilityTable.ofDims [2]).setProbability [] 0 (1/2)).1
      = .ok () ∧
    ((ConditionalProbabilityTable.ofDims [2]).setProbability [] 0
      (1/2)).2.getProbability [] 0 = .ok (1/2) ∧
    (∀ ps' ns', List.Forall₂ (· < ·) (ps' ++ [ns'])
        (ConditionalProbabilityTable.ofDims [2]).dimensions →
      ¬ (ps' = [] ∧ ns' = 0) →
      ((ConditionalProbabilityTable.ofDims [2]).setProbability [] 0
        (1/2)).2.getProbability ps' ns' =
        (ConditionalProbabilityTable.ofDims [2]).getProbability ps' ns') :=
  @C9_set_get_roundtrip (ConditionalProbabilityTable.ofDims [2])
    (ConditionalProbabilityTable.ofDims_WF [2]) [] 0 (1/2)
    (List.Forall₂.cons (by decide) List.Forall₂.nil) (by norm_num)

/-- Witness for failure without side effect: an out-of-range probability
is rejected and the tensor is returned unchanged. -/
theorem C10_set_fail_no_side_effect_witness :
    ((ConditionalProbabilityTable.ofDims [1]).setProbability [] 0 2).2 =
      ConditionalProbabilityTable.ofDims [1] :=
  @C10_set_fail_no_side_effect (ConditionalProbabilityTable.ofDims [1])
    [] 0 2 .probRange
    (by norm_num +decide [ConditionalProbabilityTable.setProbability,
      ConditionalProbabilityTable.ofDims,
      ConditionalProbabilityTable.getFlatIndex, flatIndexVal,
      calculateStrides])
